import Mathlib

/-!
Verification of the team-optimiser core (backend/src/teamOptimizer.ts).

The TypeScript core is shallowly embedded below.  JavaScript numbers are
modelled as Nat (all numbers reaching the core are non-negative integers:
collaboration counts, team sizes, list lengths).  The two runtime failure
modes of the core are modelled with an Except monad:

* the explicit input-validation throw in optimizeTeams is JsError.invalidInput;
* the TypeError that the source raises when minIdInTeam dereferences
  firstTeam[0].id on an empty first team (possible when a declared team size
  is 0) is JsError.typeError.

Generators are lazy in the source, but optimizeTeams always drains the
partition stream, so an eager list model is observationally equivalent for
every claim below.  The wall-clock field executionTimeMs of the result
record is not modelled (real time has no shallow embedding); no claim
refers to it.  console.log progress output is not modelled.
-/

/-- Person record from types.ts: an id (totally ordered lexicographic string,
load-bearing for canonical deduplication) and a display name. -/
structure Person where
  id : String
  name : String
  deriving DecidableEq, Repr

/-- ConflictMatrix from types.ts: a sparse mapping from person id to person id
to a collaboration count.  A JavaScript object lookup that may miss is an
Option-valued function; matrix[a]?.[b] returning undefined is none. -/
abbrev ConflictMatrix := String → String → Option Nat

/-- Line 21 of teamOptimizer.ts: conflictMatrix[person1]?.[person2] ?? 0.
Note the source reads only the one direction person1 -> person2. -/
def conflictLookup (conflictMatrix : ConflictMatrix) (person1 person2 : String) : Nat :=
  (conflictMatrix person1 person2).getD 0

/-- Inner double loop of calculateConflictScore (lines 15-24): for i < j add
the looked-up conflict of (team[i], team[j]).  The index pairs (i, j) with
i < j are enumerated here by structural recursion: the head paired with each
later element, then the tail recursively; the accumulated Nat total is the
same. -/
def pairwiseScore (conflictMatrix : ConflictMatrix) : List Person → Nat
  | [] => 0
  | p :: ps =>
    (ps.map (fun q => conflictLookup conflictMatrix p.id q.id)).sum
      + pairwiseScore conflictMatrix ps

/-- calculateConflictScore (teamOptimizer.ts lines 7-28): sum of all pairwise
conflicts within each team, accumulated over the teams. -/
def calculateConflictScore (teams : List (List Person)) (conflictMatrix : ConflictMatrix) : Nat :=
  (teams.map (pairwiseScore conflictMatrix)).sum

/-- combinations (teamOptimizer.ts lines 33-51).  The source generator yields,
for i = 0 .. n-k, array[i] prepended to each combination of k-1 items from
array.slice(i+1).  Structurally: the i = 0 block is the head prepended to the
(k-1)-combinations of the tail, and the i >= 1 blocks are exactly the
k-combinations of the tail (the k > length guard of the source makes both
recursions agree, in the same yield order). -/
def combinations {α : Type} : List α → Nat → List (List α)
  | _, 0 => [[]]
  | [], _ + 1 => []
  | x :: xs, k + 1 => (combinations xs k).map (x :: ·) ++ combinations xs (k + 1)

/-- Runtime failure modes of optimizeTeams: the explicit validation throw
(new Error(...)) and the TypeError crash on an empty first team. -/
inductive JsError where
  | invalidInput (msg : String)
  | typeError
  deriving DecidableEq, Repr

/-- The JavaScript string comparison a < b (lexicographic), computed on the
underlying character lists; definitionally the String order of Lean, stated
on .data so that concrete comparisons evaluate. -/
def strLt (a b : String) : Bool := decide (a.data < b.data)

/-- strLt is the String order. -/
theorem strLt_iff (a b : String) : strLt a b = true ↔ a < b := by
  simp only [strLt, decide_eq_true_eq]
  exact String.lt_iff_toList_lt.symm

/-- Lines 89-91 of teamOptimizer.ts: firstTeam.reduce over all members
starting from firstTeam[0].id.  On an empty team the source dereferences
undefined and throws a TypeError; that is the none case here. -/
def minIdInTeam : List Person → Option String
  | [] => none
  | p :: ps => some ((p :: ps).foldl (fun m q => if strLt q.id m then q.id else m) p.id)

/-- Line 94 of teamOptimizer.ts: lastMinId !== null && minIdInTeam <= lastMinId
(on strings, minId <= lm is the negation of lm < minId). -/
def skipByThreshold (lastMinId : Option String) (minId : String) : Bool :=
  match lastMinId with
  | none => false
  | some lm => ! strLt lm minId

/-- generatePartitions (teamOptimizer.ts lines 68-108).  For each candidate
first team (in generator order) the source: computes the minimum id (TypeError
on an empty team), skips the candidate when it violates the ascending-min
threshold, otherwise recurses on the remaining people, propagating the
threshold only when the next declared size equals the current one, and yields
the first team consed onto every sub-partition.  The right fold concatenates
the per-candidate yields in source order; the first error in depth-first
order wins, exactly as the lazily thrown exception would reach the driver.
people.filter with value inequality models the reference-inequality filter of
line 99: the two agree whenever the people are pairwise distinct values,
which holds for the unique-id inputs all claims quantify over. -/
def generatePartitions (people : List Person) (teamSizes : List Nat)
    (lastMinId : Option String := none) : Except JsError (List (List (List Person))) :=
  match teamSizes with
  | [] => .ok [[]]
  | firstTeamSize :: remainingTeamSizes =>
    (combinations people firstTeamSize).foldr
      (fun firstTeam acc =>
        match minIdInTeam firstTeam with
        | none => .error .typeError
        | some minId =>
          if skipByThreshold lastMinId minId then acc
          else
            match generatePartitions (people.filter (fun p => ¬ firstTeam.contains p))
                remainingTeamSizes
                (if remainingTeamSizes.head? = some firstTeamSize then some minId else none) with
            | .error e => .error e
            | .ok sub =>
              match acc with
              | .error e => .error e
              | .ok tail => .ok (sub.map (firstTeam :: ·) ++ tail))
      (.ok [])
  termination_by structural teamSizes

/-- Team wrapper from types.ts. -/
structure Team where
  members : List Person
  deriving DecidableEq, Repr

/-- TeamAssignment from types.ts. -/
structure TeamAssignment where
  teams : List Team
  conflictScore : Nat
  deriving DecidableEq, Repr

/-- OptimizationResult from types.ts, without the unmodelled wall-clock
executionTimeMs field. -/
structure OptimizationResult where
  bestAssignments : List TeamAssignment
  totalCombinationsChecked : Nat
  deriving DecidableEq, Repr

/-- Lines 142-151 of teamOptimizer.ts: partition.map(members => ({members}))
paired with its conflict score. -/
def mkTeamAssignment (partition : List (List Person)) (score : Nat) : TeamAssignment :=
  { teams := partition.map (fun members => { members := members }), conflictScore := score }

/-- Mutable loop state of optimizeTeams: bestAssignments, minScore (none
models the initial Infinity) and combinationsChecked. -/
structure SearchState where
  bestAssignments : List TeamAssignment
  minScore : Option Nat
  combinationsChecked : Nat
  deriving Repr

/-- Body of the driver loop (teamOptimizer.ts lines 134-158): count the
partition, score it, reset the best list on a strictly better score, append
on a tie while below maxResults, otherwise drop. -/
def searchStep (conflictMatrix : ConflictMatrix) (maxResults : Nat)
    (st : SearchState) (partition : List (List Person)) : SearchState :=
  let checked := st.combinationsChecked + 1
  let score := calculateConflictScore partition conflictMatrix
  match st.minScore with
  | none => ⟨[mkTeamAssignment partition score], some score, checked⟩
  | some m =>
    if score < m then ⟨[mkTeamAssignment partition score], some score, checked⟩
    else if score = m ∧ st.bestAssignments.length < maxResults then
      ⟨st.bestAssignments ++ [mkTeamAssignment partition score], some m, checked⟩
    else ⟨st.bestAssignments, some m, checked⟩

/-- optimizeTeams (teamOptimizer.ts lines 113-173): validate that the sizes
sum to the population, then fold the driver loop over the generated
partitions and return the best list truncated by slice(0, maxResults)
together with the combination counter. -/
def optimizeTeams (people : List Person) (teamSizes : List Nat)
    (conflictMatrix : ConflictMatrix) (maxResults : Nat := 10) :
    Except JsError OptimizationResult :=
  let totalPeopleNeeded := teamSizes.foldl (· + ·) 0
  if totalPeopleNeeded ≠ people.length then
    .error (.invalidInput "Team sizes sum does not match number of people")
  else
    match generatePartitions people teamSizes none with
    | .error e => .error e
    | .ok partitions =>
      let final := partitions.foldl (searchStep conflictMatrix maxResults) ⟨[], none, 0⟩
      .ok { bestAssignments := final.bestAssignments.take maxResults
            totalCombinationsChecked := final.combinationsChecked }

/-! Concrete sample data used by counterexamples and witnesses. -/

/-- Sample person with the smallest id. -/
def alice : Person := ⟨"1", "Alice"⟩

/-- Sample person with the second id. -/
def bob : Person := ⟨"2", "Bob"⟩

/-- Sample person with the third id. -/
def carol : Person := ⟨"3", "Carol"⟩

/-- Sample person with the fourth id. -/
def dave : Person := ⟨"4", "Dave"⟩

/-- A conflict matrix with no entries at all. -/
def emptyMatrix : ConflictMatrix := fun _ _ => none

/-- A matrix holding a single directed entry src -> tgt of weight v. -/
def directedMatrix (src tgt : String) (v : Nat) : ConflictMatrix :=
  fun a b => if a = src ∧ b = tgt then some v else none

/-- The matrix storing only the direction 1 -> 2 with weight 5. -/
def forwardOnlyMatrix : ConflictMatrix := directedMatrix "1" "2" 5

/-- The same single entry stored only in the opposite direction 2 -> 1. -/
def backwardOnlyMatrix : ConflictMatrix := directedMatrix "2" "1" 5

/-! Basic combination lemmas (shared helpers). -/

/-- Zero-size combinations: exactly the empty subset, for any input. -/
theorem combinations_zero {α : Type} (l : List α) : combinations l 0 = [[]] := by
  cases l <;> rfl

/-- Oversized requests yield no combinations. -/
theorem combinations_eq_nil_of_lt {α : Type} :
    ∀ {l : List α} {k : Nat}, l.length < k → combinations l k = [] := by
  intro l
  induction l with
  | nil => intro k hk; cases k with
    | zero => omega
    | succ k => rfl
  | cons x xs ih =>
    intro k hk
    cases k with
    | zero => omega
    | succ k =>
      have h1 : combinations xs k = [] := ih (by simpa using hk)
      have h2 : combinations xs (k + 1) = [] := ih (by simp at hk ⊢; omega)
      simp [combinations, h1, h2]

/-- The number of yielded combinations is the binomial coefficient
(which is 0 exactly when k exceeds the length). -/
theorem length_combinations {α : Type} :
    ∀ (l : List α) (k : Nat), (combinations l k).length = l.length.choose k := by
  intro l
  induction l with
  | nil => intro k; cases k <;> simp [combinations]
  | cons x xs ih =>
    intro k
    cases k with
    | zero => simp [combinations]
    | succ k =>
      simp [combinations, ih k, ih (k + 1), Nat.choose_succ_succ]

/-- Every yielded combination is an order-preserving subsequence of the
input of the requested length. -/
theorem mem_combinations_sublist_length {α : Type} :
    ∀ {l : List α} {k : Nat} {T : List α}, T ∈ combinations l k →
      T.Sublist l ∧ T.length = k := by
  intro l
  induction l with
  | nil =>
    intro k T hT
    cases k with
    | zero => simp [combinations] at hT; subst hT; simp
    | succ k => simp [combinations] at hT
  | cons x xs ih =>
    intro k T hT
    cases k with
    | zero => simp [combinations] at hT; subst hT; simp
    | succ k =>
      simp only [combinations, List.mem_append, List.mem_map] at hT
      rcases hT with ⟨T', hT', rfl⟩ | hT
      · obtain ⟨hs, hl⟩ := ih hT'
        exact ⟨List.Sublist.cons₂ x hs, by simp [hl]⟩
      · obtain ⟨hs, hl⟩ := ih hT
        exact ⟨hs.cons x, hl⟩

/-- For a duplicate-free input the yielded combinations are pairwise
distinct. -/
theorem nodup_combinations {α : Type} :
    ∀ {l : List α}, l.Nodup → ∀ (k : Nat), (combinations l k).Nodup := by
  intro l
  induction l with
  | nil => intro _ k; cases k <;> simp [combinations]
  | cons x xs ih =>
    intro hnd k
    have hx : x ∉ xs := (List.nodup_cons.mp hnd).1
    have hxs : xs.Nodup := (List.nodup_cons.mp hnd).2
    cases k with
    | zero => simp [combinations]
    | succ k =>
      simp only [combinations]
      refine List.Nodup.append ?_ (ih hxs (k + 1)) ?_
      · exact (ih hxs k).map fun a b hab => by simpa using hab
      · intro T hT1 hT2
        simp only [List.mem_map] at hT1
        obtain ⟨T', _, rfl⟩ := hT1
        have := (mem_combinations_sublist_length hT2).1
        exact hx (this.subset (by simp))

/-! Unfolding helpers for generatePartitions. -/

/-- The loop body of generatePartitions for one candidate first team,
lifted to a named function so proofs can case on it. -/
def partitionStep (people : List Person) (firstTeamSize : Nat) (remainingTeamSizes : List Nat)
    (lastMinId : Option String) (firstTeam : List Person)
    (acc : Except JsError (List (List (List Person)))) :
    Except JsError (List (List (List Person))) :=
  match minIdInTeam firstTeam with
  | none => .error .typeError
  | some minId =>
    if skipByThreshold lastMinId minId then acc
    else
      match generatePartitions (people.filter (fun p => ¬ firstTeam.contains p))
          remainingTeamSizes
          (if remainingTeamSizes.head? = some firstTeamSize then some minId else none) with
      | .error e => .error e
      | .ok sub =>
        match acc with
        | .error e => .error e
        | .ok tail => .ok (sub.map (firstTeam :: ·) ++ tail)

/-- Base case unfolding of generatePartitions. -/
theorem generatePartitions_nil (people : List Person) (lastMinId : Option String) :
    generatePartitions people [] lastMinId = .ok [[]] := rfl

/-- Recursive case unfolding of generatePartitions through partitionStep. -/
theorem generatePartitions_cons (people : List Person) (firstTeamSize : Nat)
    (remainingTeamSizes : List Nat) (lastMinId : Option String) :
    generatePartitions people (firstTeamSize :: remainingTeamSizes) lastMinId =
      (combinations people firstTeamSize).foldr
        (partitionStep people firstTeamSize remainingTeamSizes lastMinId) (.ok []) := rfl

/-- partitionStep on an empty candidate team: the TypeError crash. -/
theorem partitionStep_crash (people : List Person) (s0 : Nat) (rest : List Nat)
    (lastMinId : Option String) (firstTeam : List Person) (acc : Except JsError (List (List (List Person))))
    (h : minIdInTeam firstTeam = none) :
    partitionStep people s0 rest lastMinId firstTeam acc = .error .typeError := by
  simp [partitionStep, h]

/-- partitionStep when the candidate violates the ascending-min threshold:
the candidate is skipped. -/
theorem partitionStep_skip (people : List Person) (s0 : Nat) (rest : List Nat)
    (lastMinId : Option String) (firstTeam : List Person) (acc : Except JsError (List (List (List Person))))
    (minId : String) (h : minIdInTeam firstTeam = some minId)
    (hs : skipByThreshold lastMinId minId = true) :
    partitionStep people s0 rest lastMinId firstTeam acc = acc := by
  simp [partitionStep, h, hs]

/-- partitionStep when the candidate is accepted: recurse and either
propagate the first error or prepend the candidate to every sub-partition. -/
theorem partitionStep_go (people : List Person) (s0 : Nat) (rest : List Nat)
    (lastMinId : Option String) (firstTeam : List Person) (acc : Except JsError (List (List (List Person))))
    (minId : String) (h : minIdInTeam firstTeam = some minId)
    (hs : skipByThreshold lastMinId minId = false) :
    partitionStep people s0 rest lastMinId firstTeam acc =
      match generatePartitions (people.filter (fun p => ¬ firstTeam.contains p)) rest
          (if rest.head? = some s0 then some minId else none), acc with
      | .error e, _ => .error e
      | .ok _, .error e => .error e
      | .ok sub, .ok tail => .ok (sub.map (firstTeam :: ·) ++ tail) := by
  simp only [partitionStep, h, hs, Bool.false_eq_true, if_false]
  cases generatePartitions (people.filter (fun p => ¬ firstTeam.contains p)) rest
      (if rest.head? = some s0 then some minId else none) <;> cases acc <;> rfl

/-- generatePartitions never produces the validation error: its only failure
mode is the TypeError crash on an empty first team. -/
theorem generatePartitions_ne_invalidInput :
    ∀ (teamSizes : List Nat) (people : List Person) (lastMinId : Option String) (msg : String),
      generatePartitions people teamSizes lastMinId ≠ .error (.invalidInput msg) := by
  intro teamSizes
  induction teamSizes with
  | nil => intro people lastMinId msg; simp [generatePartitions_nil]
  | cons s0 rest ih =>
    intro people lastMinId
    rw [generatePartitions_cons]
    generalize combinations people s0 = cands
    induction cands with
    | nil => simp
    | cons T ts iht =>
      intro msg
      simp only [List.foldr_cons]
      cases hmin : minIdInTeam T with
      | none => simp [partitionStep_crash _ _ _ _ _ _ hmin]
      | some minId =>
        by_cases hskip : skipByThreshold lastMinId minId
        · rw [partitionStep_skip _ _ _ _ _ _ _ hmin hskip]; exact iht msg
        · rw [partitionStep_go _ _ _ _ _ _ _ hmin (by simpa using hskip)]
          cases hrec : generatePartitions (people.filter (fun p => ¬ T.contains p)) rest
              (if rest.head? = some s0 then some minId else none) with
          | error e =>
            cases e with
            | invalidInput m =>
              exact absurd hrec (ih _ _ _)
            | typeError => simp
          | ok sub =>
            cases hacc : ts.foldr (partitionStep people s0 rest lastMinId) (.ok []) with
            | error e =>
              cases e with
              | invalidInput m =>
                rw [hacc] at iht
                intro heq
                simp only [Except.error.injEq, JsError.invalidInput.injEq] at heq
                exact iht m (by rw [heq])
              | typeError => simp
            | ok tail => simp

/-! Claim C1: the conflict accessor. -/

/-- Claim C1 counterexample: moving the single matrix entry for the pair
(alice, bob) from direction 1 -> 2 to direction 2 -> 1 changes the conflict
score of the partition with the one team [alice, bob] (5 becomes 0), so the
scorer does not use a symmetric accessor reading both directions. -/
theorem C1_counterexample :
    calculateConflictScore [[alice, bob]] forwardOnlyMatrix ≠
      calculateConflictScore [[alice, bob]] backwardOnlyMatrix := by decide

/-- Claim C1 (amended): the conflict charged for an unordered pair of
teammates is the one-directional lookup matrix[a][b] ?? 0, where a is the
member listed earlier in the team; the reverse entry matrix[b][a] is never
consulted, so an entry stored only in the reverse direction contributes 0
to the score. -/
theorem C1_directional_lookup (a b : Person) (v : Nat) (h : a.id ≠ b.id) :
    calculateConflictScore [[a, b]] (directedMatrix a.id b.id v) = v ∧
    calculateConflictScore [[a, b]] (directedMatrix b.id a.id v) = 0 := by
  constructor <;>
    simp [calculateConflictScore, pairwiseScore, conflictLookup, directedMatrix, h]

/-- Witness for C1_directional_lookup at the concrete pair (alice, bob)
with weight 5. -/
theorem C1_directional_lookup_witness :
    calculateConflictScore [[alice, bob]] (directedMatrix alice.id bob.id 5) = 5 ∧
    calculateConflictScore [[alice, bob]] (directedMatrix bob.id alice.id 5) = 0 :=
  C1_directional_lookup alice bob 5 (by decide)

/-! Claim C3: input validation. -/

/-- Claim C3 counterexample: with two people and teamSizes = [2, 0] the size
sum matches the population, so validation passes even though a declared size
is non-positive; the run then aborts with the TypeError crash of the empty
first team, not with the InvalidInput validation error the claim requires. -/
theorem C3_counterexample :
    optimizeTeams [alice, bob] [2, 0] emptyMatrix 10 = .error .typeError := by rfl

/-- Claim C3 (amended): optimizeTeams raises InvalidInput if and only if the
declared sizes do not sum to the number of people (which subsumes the empty
size list with non-empty people); non-positive sizes are not validated.  When
InvalidInput is raised it comes from the upfront validation, before any
partition is generated or counted, and no result record is returned. -/
theorem C3_validation_iff (people : List Person) (teamSizes : List Nat)
    (conflictMatrix : ConflictMatrix) (maxResults : Nat) :
    (∃ msg, optimizeTeams people teamSizes conflictMatrix maxResults =
        .error (.invalidInput msg)) ↔
      teamSizes.foldl (· + ·) 0 ≠ people.length := by
  unfold optimizeTeams
  by_cases h : teamSizes.foldl (· + ·) 0 ≠ people.length
  · rw [if_pos h]
    exact ⟨fun _ => h, fun _ => ⟨_, rfl⟩⟩
  · rw [if_neg h]
    constructor
    · rintro ⟨msg, hmsg⟩
      cases hgen : generatePartitions people teamSizes none with
      | error e =>
        rw [hgen] at hmsg
        cases e with
        | invalidInput m => exact absurd hgen (generatePartitions_ne_invalidInput _ _ _ _)
        | typeError => simp at hmsg
      | ok partitions => rw [hgen] at hmsg; simp at hmsg
    · intro hc; exact absurd hc h

/-! Claim C4 counterexample: member order inside a team matters for
asymmetric matrices. -/

/-- Claim C4 counterexample: permuting the members of a team changes the
score for an asymmetric matrix: the team [alice, bob] scores 5 under the
forward-only matrix while the reordered team [bob, alice] scores 0. -/
theorem C4_counterexample :
    calculateConflictScore [[alice, bob]] forwardOnlyMatrix ≠
      calculateConflictScore [[bob, alice]] forwardOnlyMatrix := by decide

/-! Claim C7: the combination generator. -/

/-- Claim C7 counterexample: for the input sequence [0, 0] (a duplicated
element) and k = 1 the generator yields C(2,1) = 2 results, but they are the
equal lists [0] and [0], not pairwise-distinct subsets as the claim states
for every sequence. -/
theorem C7_counterexample :
    (combinations [0, 0] 1).length = Nat.choose 2 1 ∧
      ¬ (combinations ([0, 0] : List Nat) 1).Nodup := by decide

/-- Claim C7 (amended): combinations(S, 0) yields exactly the one empty
subset for every S; combinations(S, k) yields zero results when k exceeds
the length of S; it always yields exactly C(|S|, k) results, each an
order-preserving subsequence of S of length k; and the results are pairwise
distinct whenever the elements of S are pairwise distinct. -/
theorem C7_combinations_spec {α : Type} (S : List α) (k : Nat) :
    combinations S 0 = [[]] ∧
    (S.length < k → combinations S k = []) ∧
    (combinations S k).length = S.length.choose k ∧
    (∀ T ∈ combinations S k, T.Sublist S ∧ T.length = k) ∧
    (S.Nodup → (combinations S k).Nodup) :=
  ⟨combinations_zero S,
   fun h => combinations_eq_nil_of_lt h,
   length_combinations S k,
   fun _ hT => mem_combinations_sublist_length hT,
   fun h => nodup_combinations h k⟩

/-- Witness for C7_combinations_spec: concrete instances of each clause with
its hypotheses discharged. -/
theorem C7_combinations_spec_witness :
    combinations ([10, 20, 30] : List Nat) 4 = [] ∧
    (combinations ([10, 20, 30] : List Nat) 2).length = 3 ∧
    (combinations ([10, 20, 30] : List Nat) 2).Nodup := by
  have h2 := C7_combinations_spec ([10, 20, 30] : List Nat) 2
  have h4 := C7_combinations_spec ([10, 20, 30] : List Nat) 4
  exact ⟨h4.2.1 (by decide), h2.2.2.1.trans (by decide), h2.2.2.2.2 (by decide)⟩

/-! Claim C9: determinism. -/

/-- Claim C9: optimizeTeams is deterministic: calls on identical people,
team sizes, conflict matrix and maxResults produce identical results
(identical bestAssignments in identical order and identical
totalCombinationsChecked).  In this pure embedding the only source of
nondeterminism in the source, Date.now for the unmodelled executionTimeMs
field, does not influence either output field. -/
theorem C9_deterministic (people₁ people₂ : List Person) (teamSizes₁ teamSizes₂ : List Nat)
    (conflictMatrix₁ conflictMatrix₂ : ConflictMatrix) (maxResults₁ maxResults₂ : Nat)
    (hp : people₁ = people₂) (hs : teamSizes₁ = teamSizes₂)
    (hc : conflictMatrix₁ = conflictMatrix₂) (hm : maxResults₁ = maxResults₂) :
    optimizeTeams people₁ teamSizes₁ conflictMatrix₁ maxResults₁ =
      optimizeTeams people₂ teamSizes₂ conflictMatrix₂ maxResults₂ := by
  rw [hp, hs, hc, hm]

/-- Witness for C9_deterministic at a concrete input. -/
theorem C9_deterministic_witness :
    optimizeTeams [alice, bob] [2] forwardOnlyMatrix 10 =
      optimizeTeams [alice, bob] [2] forwardOnlyMatrix 10 :=
  C9_deterministic [alice, bob] [alice, bob] [2] [2] forwardOnlyMatrix forwardOnlyMatrix
    10 10 rfl rfl rfl rfl

/-! Claim C10: the empty input. -/

/-- Claim C10: for empty people and an empty size sequence, any conflict
matrix and any positive maxResults, optimizeTeams succeeds, counts exactly
the one empty partition, and returns exactly one Assignment with an empty
team list and conflict score 0. -/
theorem C10_empty_input (conflictMatrix : ConflictMatrix) (maxResults : Nat)
    (h : 1 ≤ maxResults) :
    optimizeTeams [] [] conflictMatrix maxResults =
      .ok { bestAssignments := [{ teams := [], conflictScore := 0 }],
            totalCombinationsChecked := 1 } := by
  obtain ⟨m, rfl⟩ : ∃ m, maxResults = m + 1 := ⟨maxResults - 1, by omega⟩
  simp [optimizeTeams, generatePartitions_nil, searchStep, calculateConflictScore,
    pairwiseScore, mkTeamAssignment]

/-- Witness for C10_empty_input at the default maxResults = 10 and the empty
matrix. -/
theorem C10_empty_input_witness :
    optimizeTeams [] [] emptyMatrix 10 =
      .ok { bestAssignments := [{ teams := [], conflictScore := 0 }],
            totalCombinationsChecked := 1 } :=
  C10_empty_input emptyMatrix 10 (by decide)

/-! Driver-loop characterization (shared helpers for C2 and C8). -/

/-- One update of the running minimum: the JavaScript comparison against the
initial Infinity (the none case) always adopts the new score. -/
def minOpt (acc : Option Nat) (x : Nat) : Option Nat :=
  some (match acc with | none => x | some m => min m x)

/-- Running minimum of a score stream, none for the empty stream (the
minScore variable still holding Infinity). -/
def runningMin (l : List Nat) : Option Nat := l.foldl minOpt none

/-- Folding minOpt from a some state is folding min on the payload. -/
theorem foldl_minOpt_some (l : List Nat) :
    ∀ m : Nat, l.foldl minOpt (some m) = some (l.foldl min m) := by
  induction l with
  | nil => intro m; rfl
  | cons x xs ih => intro m; simpa [minOpt] using ih (min m x)

/-- runningMin of a non-empty stream. -/
theorem runningMin_cons (x : Nat) (l : List Nat) :
    runningMin (x :: l) = some (l.foldl min x) := by
  simp [runningMin, minOpt, foldl_minOpt_some]

/-- runningMin over a stream extended on the right. -/
theorem runningMin_append_singleton (l : List Nat) (a : Nat) :
    runningMin (l ++ [a]) = minOpt (runningMin l) a := by
  simp [runningMin, List.foldl_append]

/-- A min fold never exceeds its seed. -/
theorem foldl_min_le_init (l : List Nat) : ∀ m : Nat, l.foldl min m ≤ m := by
  induction l with
  | nil => intro m; exact Nat.le_refl m
  | cons x xs ih => intro m; exact (ih (min m x)).trans (Nat.min_le_left m x)

/-- A min fold is a lower bound for every listed element. -/
theorem foldl_min_le_mem (l : List Nat) :
    ∀ (m y : Nat), y ∈ l → l.foldl min m ≤ y := by
  induction l with
  | nil => intro m y hy; simp at hy
  | cons x xs ih =>
    intro m y hy
    rcases List.mem_cons.mp hy with rfl | hy
    · exact (foldl_min_le_init xs (min m y)).trans (Nat.min_le_right m y)
    · exact ih (min m x) y hy

/-- A min fold lands on the seed or on a listed element. -/
theorem foldl_min_mem (l : List Nat) : ∀ m : Nat, l.foldl min m ∈ m :: l := by
  induction l with
  | nil => intro m; simp
  | cons x xs ih =>
    intro m
    rcases List.mem_cons.mp (ih (min m x)) with heq | hmem
    · have hfold : List.foldl min m (x :: xs) = min m x := by
        rw [List.foldl_cons]; exact heq
      rw [hfold]
      rcases min_choice m x with hm | hm <;> simp [hm]
    · exact List.mem_cons.mpr (Or.inr (List.mem_cons.mpr (Or.inr hmem)))

/-- The running minimum is a lower bound for the stream. -/
theorem runningMin_le (l : List Nat) (m : Nat) (h : runningMin l = some m) :
    ∀ y ∈ l, m ≤ y := by
  cases l with
  | nil => intro y hy; simp at hy
  | cons x xs =>
    rw [runningMin_cons] at h
    obtain rfl : xs.foldl min x = m := by injection h
    intro y hy
    rcases List.mem_cons.mp hy with rfl | hy
    · exact foldl_min_le_init xs y
    · exact foldl_min_le_mem xs x y hy

/-- The running minimum is attained by some element of the stream. -/
theorem runningMin_mem (l : List Nat) (m : Nat) (h : runningMin l = some m) :
    m ∈ l := by
  cases l with
  | nil => simp [runningMin] at h
  | cons x xs =>
    rw [runningMin_cons] at h
    obtain rfl : xs.foldl min x = m := by injection h
    exact foldl_min_mem xs x

/-- The running minimum is none exactly for the empty stream. -/
theorem runningMin_eq_none (l : List Nat) (h : runningMin l = none) : l = [] := by
  cases l with
  | nil => rfl
  | cons x xs => rw [runningMin_cons] at h; simp at h

/-- The driver counter counts every partition pulled from the generator. -/
theorem searchLoop_checked (conflictMatrix : ConflictMatrix) (maxResults : Nat) :
    ∀ (parts : List (List (List Person))) (st : SearchState),
      (parts.foldl (searchStep conflictMatrix maxResults) st).combinationsChecked =
        st.combinationsChecked + parts.length := by
  intro parts
  induction parts with
  | nil => intro st; simp
  | cons p ps ih =>
    intro st
    rw [List.foldl_cons, ih]
    have hstep : (searchStep conflictMatrix maxResults st p).combinationsChecked =
        st.combinationsChecked + 1 := by
      unfold searchStep
      cases st.minScore with
      | none => rfl
      | some m =>
        by_cases h1 : calculateConflictScore p conflictMatrix < m
        · simp [h1]
        · by_cases h2 : calculateConflictScore p conflictMatrix = m ∧
              st.bestAssignments.length < maxResults
          · simp [h1, h2]
          · simp [h1, h2]
    rw [hstep]
    simp [List.length_cons]
    omega

/-- Characterization of the driver loop: starting from the initial state,
the final minScore is the running minimum of the scores in generation order,
and the final best list consists of the first maxResults minimum-scoring
partitions in generation order. -/
theorem searchLoop_best (conflictMatrix : ConflictMatrix) (maxResults : Nat)
    (hmax : 1 ≤ maxResults) :
    ∀ (parts : List (List (List Person))) (m : Nat),
      runningMin (parts.map (fun q => calculateConflictScore q conflictMatrix)) = some m →
      (parts.foldl (searchStep conflictMatrix maxResults) ⟨[], none, 0⟩).minScore = some m ∧
      (parts.foldl (searchStep conflictMatrix maxResults) ⟨[], none, 0⟩).bestAssignments =
        ((parts.filter
            (fun p => calculateConflictScore p conflictMatrix == m)).take maxResults).map
          (fun p => mkTeamAssignment p (calculateConflictScore p conflictMatrix)) := by
  intro parts
  induction parts using List.reverseRecOn with
  | nil => intro m h; simp [runningMin] at h
  | append_singleton l a ih =>
    intro m h
    obtain ⟨k, rfl⟩ : ∃ k, maxResults = k + 1 := ⟨maxResults - 1, by omega⟩
    rw [List.map_append] at h
    simp only [List.map_cons, List.map_nil] at h
    rw [runningMin_append_singleton] at h
    rw [List.foldl_append, List.foldl_cons, List.foldl_nil]
    cases hl : runningMin (l.map (fun q => calculateConflictScore q conflictMatrix)) with
    | none =>
      have hlnil : l = [] := by
        have := runningMin_eq_none _ hl
        simpa using this
      subst hlnil
      rw [hl] at h
      have hm : m = calculateConflictScore a conflictMatrix := by
        simp [minOpt] at h
        omega
      subst hm
      simp [searchStep, mkTeamAssignment]
    | some mv =>
      rw [hl] at h
      have hm : m = min mv (calculateConflictScore a conflictMatrix) := by
        simp [minOpt] at h
        omega
      obtain ⟨h1, h2⟩ := ih mv hl
      by_cases hlt : calculateConflictScore a conflictMatrix < mv
      · -- strictly better score: reset
        have hmm : m = calculateConflictScore a conflictMatrix := by
          rw [hm]; exact Nat.min_eq_right (Nat.le_of_lt hlt)
        subst hmm
        constructor
        · simp [searchStep, h1, hlt]
        · have hfl : l.filter
              (fun p => calculateConflictScore p conflictMatrix ==
                calculateConflictScore a conflictMatrix) = [] := by
            rw [List.filter_eq_nil_iff]
            intro p hp
            have hge : mv ≤ calculateConflictScore p conflictMatrix :=
              runningMin_le _ _ hl _ (List.mem_map_of_mem _ hp)
            simp only [beq_iff_eq]
            omega
          rw [List.filter_append, hfl]
          simp [searchStep, h1, hlt, mkTeamAssignment]
      · by_cases heq : calculateConflictScore a conflictMatrix = mv
        · -- tie with the current minimum
          have hmm : m = mv := by rw [hm, heq]; simp
          subst hmm
          have hfal : (l ++ [a]).filter (fun p => calculateConflictScore p conflictMatrix == m) =
              l.filter (fun p => calculateConflictScore p conflictMatrix == m) ++ [a] := by
            rw [List.filter_append]
            simp [heq]
          constructor
          · simp only [searchStep, h1, hlt, if_false]
            split <;> rfl
          · rw [hfal]
            set fl := l.filter (fun p => calculateConflictScore p conflictMatrix == m) with hfl
            by_cases hcap : fl.length < k + 1
            · -- still below the cap: append
              have htake : fl.take (k + 1) = fl := List.take_of_length_le (by omega)
              have hblen : (l.foldl (searchStep conflictMatrix (k + 1))
                  ⟨[], none, 0⟩).bestAssignments.length < k + 1 := by
                rw [h2, htake]
                simpa using hcap
              have htake2 : (fl ++ [a]).take (k + 1) = fl ++ [a] :=
                List.take_of_length_le (by simp; omega)
              have hcond : calculateConflictScore a conflictMatrix = m ∧
                  (l.foldl (searchStep conflictMatrix (k + 1))
                    ⟨[], none, 0⟩).bestAssignments.length < k + 1 := ⟨heq, hblen⟩
              simp only [searchStep, h1, hlt, if_false, hcond, and_self, if_true]
              rw [htake2, h2, htake]
              simp [mkTeamAssignment, heq]
            · -- at the cap: drop the tie
              have hblen : ¬ (l.foldl (searchStep conflictMatrix (k + 1))
                  ⟨[], none, 0⟩).bestAssignments.length < k + 1 := by
                rw [h2]
                simp only [List.length_map, List.length_take]
                omega
              have htake3 : (fl ++ [a]).take (k + 1) = fl.take (k + 1) := by
                rw [List.take_append_eq_append_take]
                have h0 : k + 1 - fl.length = 0 := by omega
                rw [h0]
                simp
              have hcond : ¬ (calculateConflictScore a conflictMatrix = m ∧
                  (l.foldl (searchStep conflictMatrix (k + 1))
                    ⟨[], none, 0⟩).bestAssignments.length < k + 1) := by
                intro hc
                exact hblen hc.2
              simp only [searchStep, h1, hlt, if_false]
              rw [if_neg hcond, htake3, h2]
        · -- strictly worse score: drop
          have hgt : mv < calculateConflictScore a conflictMatrix := by omega
          have hmm : m = mv := by
            rw [hm]; exact Nat.min_eq_left (Nat.le_of_lt hgt)
          subst hmm
          have hfa : (l ++ [a]).filter (fun p => calculateConflictScore p conflictMatrix == m) =
              l.filter (fun p => calculateConflictScore p conflictMatrix == m) := by
            rw [List.filter_append]
            have : calculateConflictScore a conflictMatrix ≠ m := by omega
            simp [this]
          have hcond : ¬ (calculateConflictScore a conflictMatrix = m ∧
              (l.foldl (searchStep conflictMatrix (k + 1))
                ⟨[], none, 0⟩).bestAssignments.length < k + 1) := by
            intro hc
            omega
          constructor
          · simp [searchStep, h1, hlt, hcond]
          · rw [hfa]
            simp only [searchStep, h1, hlt, if_false]
            rw [if_neg hcond]
            exact h2

/-- Unfolding of optimizeTeams when validation passes and generation
succeeds. -/
theorem optimizeTeams_ok (people : List Person) (teamSizes : List Nat)
    (conflictMatrix : ConflictMatrix) (maxResults : Nat) (parts : List (List (List Person)))
    (hsum : teamSizes.foldl (· + ·) 0 = people.length)
    (hgen : generatePartitions people teamSizes none = .ok parts) :
    optimizeTeams people teamSizes conflictMatrix maxResults =
      .ok { bestAssignments :=
              (parts.foldl (searchStep conflictMatrix maxResults)
                ⟨[], none, 0⟩).bestAssignments.take maxResults,
            totalCombinationsChecked :=
              (parts.foldl (searchStep conflictMatrix maxResults)
                ⟨[], none, 0⟩).combinationsChecked } := by
  unfold optimizeTeams
  rw [if_neg (by simp [hsum]), hgen]

/-! Claim C2: optimality of the returned assignments. -/

/-- Claim C2: for every input passing validation whose partition stream is
generated without a crash, every assignment in the returned bestAssignments
scores exactly the minimum of calculateConflictScore over the enumerated
canonical partitions: its score is attained by an enumerated partition and
no enumerated partition scores strictly below it; moreover the best list is
non-empty whenever at least one partition is enumerated. -/
theorem C2_minimality (people : List Person) (teamSizes : List Nat)
    (conflictMatrix : ConflictMatrix) (maxResults : Nat) (parts : List (List (List Person)))
    (hsum : teamSizes.foldl (· + ·) 0 = people.length)
    (hgen : generatePartitions people teamSizes none = .ok parts)
    (hmax : 1 ≤ maxResults) :
    ∃ res, optimizeTeams people teamSizes conflictMatrix maxResults = .ok res ∧
      (parts ≠ [] → res.bestAssignments ≠ []) ∧
      ∀ a ∈ res.bestAssignments,
        (∃ p ∈ parts, calculateConflictScore p conflictMatrix = a.conflictScore) ∧
        ∀ p ∈ parts, a.conflictScore ≤ calculateConflictScore p conflictMatrix := by
  cases parts with
  | nil =>
    refine ⟨_, optimizeTeams_ok people teamSizes conflictMatrix maxResults [] hsum hgen, ?_, ?_⟩
    · intro h
      exact absurd rfl h
    · intro a ha
      simp at ha
  | cons p0 ps =>
    have hmin : runningMin ((p0 :: ps).map (fun q => calculateConflictScore q conflictMatrix)) =
        some ((ps.map (fun q => calculateConflictScore q conflictMatrix)).foldl min
          (calculateConflictScore p0 conflictMatrix)) := by
      rw [List.map_cons, runningMin_cons]
    obtain ⟨hms, hbest⟩ := searchLoop_best conflictMatrix maxResults hmax (p0 :: ps) _ hmin
    refine ⟨_, optimizeTeams_ok people teamSizes conflictMatrix maxResults (p0 :: ps) hsum hgen,
      ?_, ?_⟩
    · intro _
      obtain ⟨p, hp, hpm⟩ := List.mem_map.mp (runningMin_mem _ _ hmin)
      have hpf : p ∈ (p0 :: ps).filter
          (fun q => calculateConflictScore q conflictMatrix ==
            (ps.map (fun q => calculateConflictScore q conflictMatrix)).foldl min
              (calculateConflictScore p0 conflictMatrix)) :=
        List.mem_filter.mpr ⟨hp, by simp [hpm]⟩
      obtain ⟨k, rfl⟩ : ∃ k, maxResults = k + 1 := ⟨maxResults - 1, by omega⟩
      cases hfl : (p0 :: ps).filter
          (fun q => calculateConflictScore q conflictMatrix ==
            (ps.map (fun q => calculateConflictScore q conflictMatrix)).foldl min
              (calculateConflictScore p0 conflictMatrix)) with
      | nil => rw [hfl] at hpf; simp at hpf
      | cons f fs =>
        simp only [hbest, hfl]
        simp
    · intro a ha
      simp only [hbest] at ha
      have ha2 := List.take_subset _ _ ha
      obtain ⟨p, hpmem, rfl⟩ := List.mem_map.mp ha2
      have hpf := List.take_subset _ _ hpmem
      obtain ⟨hpin, hpeq⟩ := List.mem_filter.mp hpf
      have hpscore : calculateConflictScore p conflictMatrix =
          (ps.map (fun q => calculateConflictScore q conflictMatrix)).foldl min
            (calculateConflictScore p0 conflictMatrix) := by
        simpa using hpeq
      constructor
      · exact ⟨p, hpin, rfl⟩
      · intro q hq
        have hle := runningMin_le _ _ hmin _
          (List.mem_map_of_mem (fun r => calculateConflictScore r conflictMatrix) hq)
        simpa [mkTeamAssignment, hpscore] using hle

/-- The three canonical partitions of the four sample people into sizes
[2, 2] (scenario A of the specification). -/
def scenarioParts : List (List (List Person)) :=
  [[[alice, bob], [carol, dave]],
   [[alice, carol], [bob, dave]],
   [[alice, dave], [bob, carol]]]

/-- The generator really yields exactly the three scenario partitions. -/
theorem generatePartitions_scenario :
    generatePartitions [alice, bob, carol, dave] [2, 2] none = .ok scenarioParts := by rfl

/-- Witness for C2_minimality at scenario A (matrix storing only 1 -> 2
with weight 5). -/
theorem C2_minimality_witness :
    ∃ res, optimizeTeams [alice, bob, carol, dave] [2, 2] forwardOnlyMatrix 10 = .ok res ∧
      (scenarioParts ≠ [] → res.bestAssignments ≠ []) ∧
      ∀ a ∈ res.bestAssignments,
        (∃ p ∈ scenarioParts, calculateConflictScore p forwardOnlyMatrix = a.conflictScore) ∧
        ∀ p ∈ scenarioParts, a.conflictScore ≤ calculateConflictScore p forwardOnlyMatrix :=
  C2_minimality [alice, bob, carol, dave] [2, 2] forwardOnlyMatrix 10 scenarioParts
    (by rfl) generatePartitions_scenario (by decide)

/-! Claim C8: the result cap and tie dropping. -/

/-- Claim C8: for every input passing validation whose partition stream is
generated without a crash and whose minimum score is m, the returned
bestAssignments has length at most maxResults and equals exactly the first
maxResults minimum-scoring partitions in generation order (later ties are
dropped). -/
theorem C8_result_cap (people : List Person) (teamSizes : List Nat)
    (conflictMatrix : ConflictMatrix) (maxResults : Nat) (parts : List (List (List Person)))
    (m : Nat)
    (hsum : teamSizes.foldl (· + ·) 0 = people.length)
    (hgen : generatePartitions people teamSizes none = .ok parts)
    (hmax : 1 ≤ maxResults)
    (hmin : runningMin (parts.map (fun q => calculateConflictScore q conflictMatrix)) = some m) :
    ∃ res, optimizeTeams people teamSizes conflictMatrix maxResults = .ok res ∧
      res.bestAssignments.length ≤ maxResults ∧
      res.bestAssignments =
        ((parts.filter
            (fun p => calculateConflictScore p conflictMatrix == m)).take maxResults).map
          (fun p => mkTeamAssignment p (calculateConflictScore p conflictMatrix)) := by
  obtain ⟨hms, hbest⟩ := searchLoop_best conflictMatrix maxResults hmax parts m hmin
  refine ⟨_, optimizeTeams_ok people teamSizes conflictMatrix maxResults parts hsum hgen,
    ?_, ?_⟩
  · simp only [hbest]
    rw [List.length_take]
    omega
  · simp only [hbest]
    rw [← List.map_take, List.take_take, Nat.min_self]

/-- Witness for C8_result_cap: four people in sizes [2, 2] under the empty
matrix produce three tied partitions at score 0, and maxResults = 2 keeps
exactly the first two in generation order. -/
theorem C8_result_cap_witness :
    ∃ res, optimizeTeams [alice, bob, carol, dave] [2, 2] emptyMatrix 2 = .ok res ∧
      res.bestAssignments.length ≤ 2 ∧
      res.bestAssignments =
        ((scenarioParts.filter
            (fun p => calculateConflictScore p emptyMatrix == 0)).take 2).map
          (fun p => mkTeamAssignment p (calculateConflictScore p emptyMatrix)) :=
  C8_result_cap [alice, bob, carol, dave] [2, 2] emptyMatrix 2 scenarioParts 0 (by rfl)
    generatePartitions_scenario (by decide) (by rfl)

/-! Claim C6: returned assignments are genuine partitions. -/

/-- Shifting the seed out of a Nat sum fold. -/
theorem foldl_add_shift (l : List Nat) : ∀ n : Nat, l.foldl (· + ·) n = n + l.foldl (· + ·) 0 := by
  induction l with
  | nil => intro n; simp
  | cons x xs ih =>
    intro n
    rw [List.foldl_cons, ih (n + x), List.foldl_cons, ih (0 + x)]
    omega

/-- Removing an order-preserving selection and keeping the rest is a
permutation of a duplicate-free list. -/
theorem sublist_append_filter_perm :
    ∀ {c l : List Person}, c.Sublist l → l.Nodup →
      (c ++ l.filter (fun p => ¬ c.contains p)).Perm l := by
  intro c l hs
  induction hs with
  | slnil => intro _; simp
  | @cons c l a hsub ih =>
    intro hnd
    have hal : a ∉ l := (List.nodup_cons.mp hnd).1
    have hac : a ∉ c := fun hac => hal (hsub.subset hac)
    have hfil : (a :: l).filter (fun p => ¬ c.contains p) =
        a :: l.filter (fun p => ¬ c.contains p) := by
      rw [List.filter_cons]
      simp [hac]
    rw [hfil]
    have hper := ih (List.nodup_cons.mp hnd).2
    exact List.perm_middle.trans (hper.cons a)
  | @cons₂ c l a hsub ih =>
    intro hnd
    have hal : a ∉ l := (List.nodup_cons.mp hnd).1
    have hfil : (a :: l).filter (fun p => ¬ (a :: c).contains p) =
        l.filter (fun p => ¬ (a :: c).contains p) := by
      rw [List.filter_cons]
      simp
    have hcongr : l.filter (fun p => ¬ (a :: c).contains p) =
        l.filter (fun p => ¬ c.contains p) := by
      apply List.filter_congr
      intro p hp
      have hpa : p ≠ a := fun h => hal (h ▸ hp)
      simp [hpa]
    rw [hfil, hcongr, List.cons_append]
    exact (ih (List.nodup_cons.mp hnd).2).cons a

/-- Every successfully generated partition has teams of exactly the declared
sizes in slot order, and its teams jointly cover the (duplicate-free) input
people exactly once. -/
theorem generatePartitions_partition :
    ∀ (teamSizes : List Nat) (people : List Person) (lastMinId : Option String),
      people.Nodup →
      teamSizes.foldl (· + ·) 0 = people.length →
      ∀ (parts : List (List (List Person))) (P : List (List Person)),
        generatePartitions people teamSizes lastMinId = .ok parts →
        P ∈ parts →
        List.Forall₂ (fun (team : List Person) (s : Nat) => team.length = s) P teamSizes ∧
        P.join.Perm people := by
  intro teamSizes
  induction teamSizes with
  | nil =>
    intro people lastMinId hnd hsum parts P hgen hP
    rw [generatePartitions_nil] at hgen
    obtain rfl : [[]] = parts := by simpa using hgen
    obtain rfl : P = [] := by simpa using hP
    refine ⟨List.Forall₂.nil, ?_⟩
    have hpe : people = [] := List.length_eq_zero.mp (by simpa using hsum.symm)
    subst hpe
    simp
  | cons s0 rest ih =>
    intro people lastMinId hnd hsum
    simp only [generatePartitions_cons]
    have hcands0 : ∀ T ∈ combinations people s0, T.Sublist people ∧ T.length = s0 :=
      fun T hT => mem_combinations_sublist_length hT
    revert hcands0
    generalize combinations people s0 = cands
    induction cands with
    | nil =>
      intro _ parts P hgen hP
      obtain rfl : [] = parts := by simpa using hgen
      simp at hP
    | cons T ts iht =>
      intro hcands parts P hgen hP
      rw [List.foldr_cons] at hgen
      cases hmin : minIdInTeam T with
      | none =>
        rw [partitionStep_crash _ _ _ _ _ _ hmin] at hgen
        simp at hgen
      | some minId =>
        by_cases hskip : skipByThreshold lastMinId minId
        · rw [partitionStep_skip _ _ _ _ _ _ _ hmin hskip] at hgen
          exact iht (fun T' hT' => hcands T' (by simp [hT'])) parts P hgen hP
        · rw [partitionStep_go _ _ _ _ _ _ _ hmin (by simpa using hskip)] at hgen
          cases hrec : generatePartitions (people.filter (fun p => ¬ T.contains p)) rest
              (if rest.head? = some s0 then some minId else none) with
          | error e => rw [hrec] at hgen; simp at hgen
          | ok sub =>
            rw [hrec] at hgen
            cases hacc : ts.foldr (partitionStep people s0 rest lastMinId) (.ok []) with
            | error e => rw [hacc] at hgen; simp at hgen
            | ok tail =>
              rw [hacc] at hgen
              obtain rfl : sub.map (T :: ·) ++ tail = parts := by simpa using hgen
              rcases List.mem_append.mp hP with hPm | hPt
              · obtain ⟨P', hP', rfl⟩ := List.mem_map.mp hPm
                obtain ⟨hTs, hTl⟩ := hcands T (by simp)
                have hndrem : (people.filter (fun p => ¬ T.contains p)).Nodup :=
                  hnd.filter _
                have hpermT := sublist_append_filter_perm hTs hnd
                have hlenrem : rest.foldl (· + ·) 0 =
                    (people.filter (fun p => ¬ T.contains p)).length := by
                  have hlen := hpermT.length_eq
                  rw [List.foldl_cons, foldl_add_shift] at hsum
                  rw [List.length_append, hTl] at hlen
                  omega
                obtain ⟨hF, hJ⟩ := ih (people.filter (fun p => ¬ T.contains p)) _
                  hndrem hlenrem sub P' hrec hP'
                refine ⟨List.Forall₂.cons hTl hF, ?_⟩
                have hjc : (T :: P').join = T ++ P'.join := rfl
                rw [hjc]
                exact (hJ.append_left T).trans hpermT
              · exact iht (fun T' hT' => hcands T' (by simp [hT'])) tail P hacc hPt

/-- Every assignment in the final best list is a scored partition pulled
from the generated stream. -/
theorem mem_best_mem_parts (conflictMatrix : ConflictMatrix) (maxResults : Nat)
    (hmax : 1 ≤ maxResults) (parts : List (List (List Person))) (a : TeamAssignment)
    (ha : a ∈ (parts.foldl (searchStep conflictMatrix maxResults)
      ⟨[], none, 0⟩).bestAssignments) :
    ∃ P ∈ parts, a = mkTeamAssignment P (calculateConflictScore P conflictMatrix) := by
  cases parts with
  | nil => simp at ha
  | cons p0 ps =>
    have hmin : runningMin ((p0 :: ps).map (fun q => calculateConflictScore q conflictMatrix)) =
        some ((ps.map (fun q => calculateConflictScore q conflictMatrix)).foldl min
          (calculateConflictScore p0 conflictMatrix)) := by
      rw [List.map_cons, runningMin_cons]
    obtain ⟨_, hbest⟩ := searchLoop_best conflictMatrix maxResults hmax (p0 :: ps) _ hmin
    rw [hbest] at ha
    obtain ⟨P, hPmem, rfl⟩ := List.mem_map.mp ha
    exact ⟨P, (List.mem_filter.mp (List.take_subset _ _ hPmem)).1, rfl⟩

/-- Claim C6: for every input with unique ids passing validation whose
partition stream is generated without a crash, every returned assignment is a
partition of the input people: the slot-ordered team cardinalities equal the
declared teamSizes, and the concatenation of the teams is a permutation of
the people (each person in exactly one team, none repeated or omitted). -/
theorem C6_partition_cover (people : List Person) (teamSizes : List Nat)
    (conflictMatrix : ConflictMatrix) (maxResults : Nat) (parts : List (List (List Person)))
    (hnd : (people.map Person.id).Nodup)
    (hsum : teamSizes.foldl (· + ·) 0 = people.length)
    (hgen : generatePartitions people teamSizes none = .ok parts)
    (hmax : 1 ≤ maxResults) :
    ∃ res, optimizeTeams people teamSizes conflictMatrix maxResults = .ok res ∧
      ∀ a ∈ res.bestAssignments,
        List.Forall₂ (fun (t : Team) (s : Nat) => t.members.length = s) a.teams teamSizes ∧
        (a.teams.map Team.members).join.Perm people := by
  refine ⟨_, optimizeTeams_ok people teamSizes conflictMatrix maxResults parts hsum hgen, ?_⟩
  intro a ha
  have ha2 := List.take_subset _ _ ha
  obtain ⟨P, hPparts, rfl⟩ := mem_best_mem_parts conflictMatrix maxResults hmax parts _ ha2
  obtain ⟨hF, hJ⟩ := generatePartitions_partition teamSizes people none
    (List.Nodup.of_map _ hnd) hsum parts P hgen hPparts
  constructor
  · have hteams : (mkTeamAssignment P (calculateConflictScore P conflictMatrix)).teams =
        P.map (fun members => { members := members }) := rfl
    rw [hteams, List.forall₂_map_left_iff]
    exact hF
  · have hmem : (mkTeamAssignment P (calculateConflictScore P conflictMatrix)).teams.map
        Team.members = P := by
      simp only [mkTeamAssignment, List.map_map]
      exact List.map_id P
    rw [hmem]
    exact hJ

/-- Witness for C6_partition_cover at scenario A. -/
theorem C6_partition_cover_witness :
    ∃ res, optimizeTeams [alice, bob, carol, dave] [2, 2] forwardOnlyMatrix 10 = .ok res ∧
      ∀ a ∈ res.bestAssignments,
        List.Forall₂ (fun (t : Team) (s : Nat) => t.members.length = s) a.teams [2, 2] ∧
        (a.teams.map Team.members).join.Perm [alice, bob, carol, dave] :=
  C6_partition_cover [alice, bob, carol, dave] [2, 2] forwardOnlyMatrix 10 scenarioParts
    (by decide) (by rfl) generatePartitions_scenario (by decide)

/-! Claim C4: permutation invariance of the scorer. -/

/-- Full double sum of lookups over a team, diagonal included (helper for
the symmetric-matrix invariance argument). -/
def fullSum (conflictMatrix : ConflictMatrix) (t : List Person) : Nat :=
  (t.map (fun p => (t.map (fun q => conflictLookup conflictMatrix p.id q.id)).sum)).sum

/-- Diagonal sum of lookups over a team. -/
def diagSum (conflictMatrix : ConflictMatrix) (t : List Person) : Nat :=
  (t.map (fun p => conflictLookup conflictMatrix p.id p.id)).sum

/-- Sums of pointwise Nat sums split. -/
theorem sum_map_add {α : Type} (f g : α → Nat) (l : List α) :
    (l.map (fun x => f x + g x)).sum = (l.map f).sum + (l.map g).sum := by
  induction l with
  | nil => simp
  | cons x xs ih => simp [ih]; omega

/-- For a matrix with symmetric effective lookup, twice the pairwise score
plus the diagonal is the full double sum. -/
theorem two_mul_pairwiseScore (conflictMatrix : ConflictMatrix)
    (hsym : ∀ a b : String,
      conflictLookup conflictMatrix a b = conflictLookup conflictMatrix b a) :
    ∀ t : List Person,
      2 * pairwiseScore conflictMatrix t + diagSum conflictMatrix t =
        fullSum conflictMatrix t := by
  intro t
  induction t with
  | nil => simp [pairwiseScore, diagSum, fullSum]
  | cons p ps ih =>
    have hsymsum : (ps.map (fun r => conflictLookup conflictMatrix r.id p.id)).sum =
        (ps.map (fun r => conflictLookup conflictMatrix p.id r.id)).sum :=
      congrArg List.sum (List.map_congr_left (fun r _ => hsym r.id p.id))
    have hadd := sum_map_add (fun r => conflictLookup conflictMatrix r.id p.id)
      (fun r => (ps.map (fun q => conflictLookup conflictMatrix r.id q.id)).sum) ps
    simp only [pairwiseScore, diagSum, fullSum, List.map_cons, List.sum_cons] at ih ⊢
    rw [hadd, hsymsum]
    omega

/-- The full double sum only depends on the team as a multiset. -/
theorem fullSum_perm (conflictMatrix : ConflictMatrix) {t t' : List Person}
    (h : t.Perm t') : fullSum conflictMatrix t = fullSum conflictMatrix t' := by
  unfold fullSum
  have hin : t.map (fun p => (t.map
      (fun q => conflictLookup conflictMatrix p.id q.id)).sum) =
      t.map (fun p => (t'.map (fun q => conflictLookup conflictMatrix p.id q.id)).sum) := by
    apply List.map_congr_left
    intro p _
    exact (h.map _).sum_eq
  rw [hin]
  exact (h.map _).sum_eq

/-- The diagonal sum only depends on the team as a multiset. -/
theorem diagSum_perm (conflictMatrix : ConflictMatrix) {t t' : List Person}
    (h : t.Perm t') : diagSum conflictMatrix t = diagSum conflictMatrix t' := by
  exact (h.map _).sum_eq

/-- For symmetric effective lookup the pairwise score is invariant under
permuting the members of a team. -/
theorem pairwiseScore_perm (conflictMatrix : ConflictMatrix)
    (hsym : ∀ a b : String,
      conflictLookup conflictMatrix a b = conflictLookup conflictMatrix b a)
    {t t' : List Person} (h : t.Perm t') :
    pairwiseScore conflictMatrix t = pairwiseScore conflictMatrix t' := by
  have h1 := two_mul_pairwiseScore conflictMatrix hsym t
  have h2 := two_mul_pairwiseScore conflictMatrix hsym t'
  have h3 := fullSum_perm conflictMatrix h
  have h4 := diagSum_perm conflictMatrix h
  omega

/-- Claim C4 counterexample is above; this is the amended claim.  The score
is invariant under permuting the Teams of the Partition for every matrix
(take teams = mid); it is additionally invariant under permuting the members
within each Team provided the effective lookup is symmetric, i.e.
matrix[a][b] ?? 0 = matrix[b][a] ?? 0 for all ids.  For asymmetric matrices
member reordering can change the score (see the counterexample). -/
theorem C4_score_invariance (conflictMatrix : ConflictMatrix)
    (teams mid teams' : List (List Person))
    (h1 : List.Forall₂ List.Perm teams mid) (h2 : mid.Perm teams')
    (hsym : (∀ a b : String,
        conflictLookup conflictMatrix a b = conflictLookup conflictMatrix b a) ∨
      teams = mid) :
    calculateConflictScore teams conflictMatrix =
      calculateConflictScore teams' conflictMatrix := by
  have hmid : calculateConflictScore teams conflictMatrix =
      calculateConflictScore mid conflictMatrix := by
    rcases hsym with hsym | rfl
    · unfold calculateConflictScore
      have hmap : teams.map (pairwiseScore conflictMatrix) =
          mid.map (pairwiseScore conflictMatrix) := by
        clear h2
        induction h1 with
        | nil => rfl
        | cons hp _ ihm => simp [ihm, pairwiseScore_perm conflictMatrix hsym hp]
      rw [hmap]
    · rfl
  rw [hmid]
  unfold calculateConflictScore
  exact (h2.map _).sum_eq

/-- A concrete symmetric matrix storing the pair (1, 2) in both directions. -/
def symMatrix : ConflictMatrix :=
  fun a b => if (a = "1" ∧ b = "2") ∨ (a = "2" ∧ b = "1") then some 5 else none

/-- The sample symmetric matrix really has symmetric lookups. -/
theorem symMatrix_symm (a b : String) :
    conflictLookup symMatrix a b = conflictLookup symMatrix b a := by
  simp only [conflictLookup, symMatrix]
  have hiff : ((a = "1" ∧ b = "2") ∨ (a = "2" ∧ b = "1")) ↔
      ((b = "1" ∧ a = "2") ∨ (b = "2" ∧ a = "1")) := by tauto
  rw [if_congr hiff rfl rfl]

/-- Witness for C4_score_invariance: reordering members within the team and
swapping the two teams leaves the score unchanged for the symmetric sample
matrix. -/
theorem C4_score_invariance_witness :
    calculateConflictScore [[alice, bob], [carol, dave]] symMatrix =
      calculateConflictScore [[carol, dave], [bob, alice]] symMatrix :=
  C4_score_invariance symMatrix [[alice, bob], [carol, dave]]
    [[bob, alice], [carol, dave]] [[carol, dave], [bob, alice]]
    (by decide) (by decide) (Or.inl symMatrix_symm)

/-! Claim C5: counting the canonical partitions.  The development below
computes the length of the generated partition list: first the list length
is expressed as a sum of per-candidate weights, then the count is shown
invariant under permuting the people, then for people sorted by id the count
is computed by a recursion E, and finally E is given its closed form. -/

/-- Length of the payload of a generation result (0 for an error). -/
def okLength (e : Except JsError (List (List (List Person)))) : Nat :=
  match e with
  | .ok l => l.length
  | .error _ => 0

/-- A non-empty team always has a minimum id. -/
theorem minIdInTeam_isSome (T : List Person) (h : T ≠ []) :
    ∃ m, minIdInTeam T = some m := by
  cases T with
  | nil => exact absurd rfl h
  | cons p ps => exact ⟨_, rfl⟩

/-- The per-candidate weight of the generation loop: 0 for a skipped
candidate, the recursive count otherwise. -/
def candWeight (people : List Person) (firstTeamSize : Nat) (remainingTeamSizes : List Nat)
    (lastMinId : Option String) (firstTeam : List Person) : Nat :=
  match minIdInTeam firstTeam with
  | none => 0
  | some minId =>
    if skipByThreshold lastMinId minId then 0
    else okLength (generatePartitions (people.filter (fun p => ¬ firstTeam.contains p))
      remainingTeamSizes
      (if remainingTeamSizes.head? = some firstTeamSize then some minId else none))

/-- When every candidate either is skipped or generates successfully, the
candidate fold succeeds and the length of its yield is the sum of the
candidate weights. -/
theorem foldr_partitionStep_length :
    ∀ (cands : List (List Person)) (people : List Person) (s0 : Nat) (rest : List Nat)
      (lastMinId : Option String),
      (∀ T ∈ cands, ∃ m, minIdInTeam T = some m ∧
        (skipByThreshold lastMinId m = true ∨
          ∃ sub, generatePartitions (people.filter (fun p => ¬ T.contains p)) rest
            (if rest.head? = some s0 then some m else none) = .ok sub)) →
      ∃ parts, cands.foldr (partitionStep people s0 rest lastMinId) (.ok []) = .ok parts ∧
        parts.length = (cands.map (candWeight people s0 rest lastMinId)).sum := by
  intro cands
  induction cands with
  | nil => intro people s0 rest lastMinId _; exact ⟨[], rfl, rfl⟩
  | cons T ts ih =>
    intro people s0 rest lastMinId hW
    obtain ⟨tailParts, htail, hlen⟩ :=
      ih people s0 rest lastMinId (fun T' hT' => hW T' (List.mem_cons_of_mem T hT'))
    obtain ⟨m, hm, hcase⟩ := hW T (List.mem_cons_self T ts)
    by_cases hskip : skipByThreshold lastMinId m = true
    · refine ⟨tailParts, ?_, ?_⟩
      · rw [List.foldr_cons, htail, partitionStep_skip _ _ _ _ _ _ _ hm hskip]
      · rw [List.map_cons, List.sum_cons, hlen]
        have hw0 : candWeight people s0 rest lastMinId T = 0 := by
          simp [candWeight, hm, hskip]
        rw [hw0]
        omega
    · rcases hcase with hsk | ⟨sub, hsub⟩
      · exact absurd hsk hskip
      · refine ⟨sub.map (T :: ·) ++ tailParts, ?_, ?_⟩
        · rw [List.foldr_cons, partitionStep_go _ _ _ _ _ _ _ hm (by simpa using hskip),
            hsub, htail]
        · rw [List.length_append, List.length_map, List.map_cons, List.sum_cons, hlen]
          have hwv : candWeight people s0 rest lastMinId T = sub.length := by
            unfold candWeight
            rw [hm]
            simp only [if_neg hskip]
            rw [hsub]
            rfl
          rw [hwv]

/-- With positive declared sizes the generator never crashes. -/
theorem genP_ok_of_pos :
    ∀ (teamSizes : List Nat), (∀ s ∈ teamSizes, 0 < s) →
      ∀ (people : List Person) (lastMinId : Option String),
        ∃ parts, generatePartitions people teamSizes lastMinId = .ok parts := by
  intro teamSizes
  induction teamSizes with
  | nil => intro _ people lastMinId; exact ⟨[[]], rfl⟩
  | cons s0 rest ih =>
    intro hpos people lastMinId
    have hW : ∀ T ∈ combinations people s0, ∃ m, minIdInTeam T = some m ∧
        (skipByThreshold lastMinId m = true ∨
          ∃ sub, generatePartitions (people.filter (fun p => ¬ T.contains p)) rest
            (if rest.head? = some s0 then some m else none) = .ok sub) := by
      intro T hT
      have hTlen : T.length = s0 := (mem_combinations_sublist_length hT).2
      have hTne : T ≠ [] := by
        intro hnil
        rw [hnil] at hTlen
        have := hpos s0 (by simp)
        simp at hTlen
        omega
      obtain ⟨m, hm⟩ := minIdInTeam_isSome T hTne
      refine ⟨m, hm, Or.inr ?_⟩
      exact ih (fun s hs => hpos s (by simp [hs])) _ _
    obtain ⟨parts, hp, _⟩ := foldr_partitionStep_length (combinations people s0)
      people s0 rest lastMinId hW
    exact ⟨parts, by rw [generatePartitions_cons]; exact hp⟩

/-- With positive declared sizes the count of generated partitions is the
sum of the candidate weights. -/
theorem okLength_genP_cons (s0 : Nat) (rest : List Nat)
    (hpos : ∀ s ∈ (s0 :: rest), 0 < s) (people : List Person) (lastMinId : Option String) :
    okLength (generatePartitions people (s0 :: rest) lastMinId) =
      ((combinations people s0).map (candWeight people s0 rest lastMinId)).sum := by
  have hW : ∀ T ∈ combinations people s0, ∃ m, minIdInTeam T = some m ∧
      (skipByThreshold lastMinId m = true ∨
        ∃ sub, generatePartitions (people.filter (fun p => ¬ T.contains p)) rest
          (if rest.head? = some s0 then some m else none) = .ok sub) := by
    intro T hT
    have hTlen : T.length = s0 := (mem_combinations_sublist_length hT).2
    have hTne : T ≠ [] := by
      intro hnil
      rw [hnil] at hTlen
      have := hpos s0 (by simp)
      simp at hTlen
      omega
    obtain ⟨m, hm⟩ := minIdInTeam_isSome T hTne
    refine ⟨m, hm, Or.inr ?_⟩
    exact genP_ok_of_pos rest (fun s hs => hpos s (by simp [hs])) _ _
  obtain ⟨parts, hp, hlen⟩ := foldr_partitionStep_length (combinations people s0)
    people s0 rest lastMinId hW
  rw [generatePartitions_cons, hp]
  exact hlen

/-- Bool-level negation of the string comparison. -/
theorem strLt_eq_false_iff (a b : String) : strLt a b = false ↔ ¬ a < b := by
  rw [← strLt_iff]
  cases strLt a b <;> simp

/-- The min-id fold never exceeds its seed. -/
theorem foldMinId_le_init (l : List Person) :
    ∀ init : String,
      l.foldl (fun m q => if strLt q.id m then q.id else m) init ≤ init := by
  induction l with
  | nil => intro init; exact le_refl init
  | cons q l ih =>
    intro init
    rw [List.foldl_cons]
    by_cases hq : strLt q.id init = true
    · rw [if_pos hq]
      exact (ih q.id).trans (le_of_lt ((strLt_iff _ _).mp hq))
    · rw [if_neg hq]
      exact ih init

/-- The min-id fold is a lower bound for every listed id. -/
theorem foldMinId_le_mem (l : List Person) :
    ∀ (init : String) (y : Person), y ∈ l →
      l.foldl (fun m q => if strLt q.id m then q.id else m) init ≤ y.id := by
  induction l with
  | nil => intro _ y hy; simp at hy
  | cons q l ih =>
    intro init y hy
    rw [List.foldl_cons]
    rcases List.mem_cons.mp hy with rfl | hy
    · by_cases hq : strLt y.id init = true
      · rw [if_pos hq]
        exact foldMinId_le_init l y.id
      · rw [if_neg hq]
        have : ¬ y.id < init := by
          have := (strLt_eq_false_iff y.id init).mp (by simpa using hq)
          exact this
        exact (foldMinId_le_init l init).trans (not_lt.mp this)
    · by_cases hq : strLt q.id init = true
      · rw [if_pos hq]; exact ih q.id y hy
      · rw [if_neg hq]; exact ih init y hy

/-- The min-id fold lands on the seed or on a listed id. -/
theorem foldMinId_mem (l : List Person) :
    ∀ init : String,
      l.foldl (fun m q => if strLt q.id m then q.id else m) init ∈
        init :: l.map (fun p => p.id) := by
  induction l with
  | nil => intro init; simp
  | cons q l ih =>
    intro init
    rw [List.foldl_cons]
    by_cases hq : strLt q.id init = true
    · rw [if_pos hq]
      rcases List.mem_cons.mp (ih q.id) with heq | hmem
      · rw [heq]; simp
      · simp [List.mem_cons, hmem]
    · rw [if_neg hq]
      rcases List.mem_cons.mp (ih init) with heq | hmem
      · rw [heq]; simp
      · simp [List.mem_cons, hmem]

/-- Min-id of a team: it is the id of a member and a lower bound for all
member ids. -/
theorem minIdInTeam_spec (T : List Person) (m : String) (h : minIdInTeam T = some m) :
    m ∈ T.map (fun p => p.id) ∧ ∀ p ∈ T, m ≤ p.id := by
  cases T with
  | nil => simp [minIdInTeam] at h
  | cons p ps =>
    obtain rfl : (p :: ps).foldl (fun m q => if strLt q.id m then q.id else m) p.id = m := by
      simpa [minIdInTeam] using h
    constructor
    · rcases List.mem_cons.mp (foldMinId_mem (p :: ps) p.id) with heq | hmem
      · rw [heq]; simp
      · exact hmem
    · intro q hq
      exact foldMinId_le_mem (p :: ps) p.id q hq

/-- Min-id only depends on the team as a multiset. -/
theorem minIdInTeam_perm {T T' : List Person} (h : T.Perm T') :
    minIdInTeam T = minIdInTeam T' := by
  cases T with
  | nil =>
    have : T' = [] := h.symm.eq_nil
    rw [this]
  | cons p ps =>
    cases T' with
    | nil => exact absurd h.eq_nil (by simp)
    | cons p' ps' =>
      obtain ⟨m, hm⟩ := minIdInTeam_isSome (p :: ps) (by simp)
      obtain ⟨m', hm'⟩ := minIdInTeam_isSome (p' :: ps') (by simp)
      rw [hm, hm']
      obtain ⟨hmem, hle⟩ := minIdInTeam_spec _ _ hm
      obtain ⟨hmem', hle'⟩ := minIdInTeam_spec _ _ hm'
      obtain ⟨q, hq, rfl⟩ := List.mem_map.mp hmem
      obtain ⟨q', hq', rfl⟩ := List.mem_map.mp hmem'
      have h1 : q'.id ≤ q.id := hle' q (h.mem_iff.mp hq)
      have h2 : q.id ≤ q'.id := hle q' (h.mem_iff.mpr hq')
      rw [le_antisymm h2 h1]

/-- The min-id fold keeps a seed below every listed id. -/
theorem foldMinId_const (l : List Person) :
    ∀ init : String, (∀ q ∈ l, ¬ q.id < init) →
      l.foldl (fun m q => if strLt q.id m then q.id else m) init = init := by
  induction l with
  | nil => intro _ _; rfl
  | cons q l ih =>
    intro init hq
    rw [List.foldl_cons]
    have : strLt q.id init = false :=
      (strLt_eq_false_iff _ _).mpr (hq q (by simp))
    rw [this]
    simp only [Bool.false_eq_true, if_false]
    exact ih init (fun r hr => hq r (by simp [hr]))

/-- For a team whose first member has the strictly smallest id, the min-id
is the head id (in particular for teams sorted by id). -/
theorem minIdInTeam_sorted_head (p : Person) (ps : List Person)
    (h : ∀ q ∈ ps, p.id < q.id) : minIdInTeam (p :: ps) = some p.id := by
  have hdef : minIdInTeam (p :: ps) =
      some ((p :: ps).foldl (fun m q => if strLt q.id m then q.id else m) p.id) := rfl
  rw [hdef, List.foldl_cons]
  have h1 : strLt p.id p.id = false := (strLt_eq_false_iff _ _).mpr (lt_irrefl _)
  rw [h1]
  simp only [Bool.false_eq_true, if_false]
  rw [foldMinId_const ps p.id (fun q hq => not_lt.mpr (le_of_lt (h q hq)))]

/-- Unfolding of combinations on a cons cell and a positive size. -/
theorem combinations_succ_cons {α : Type} (x : α) (xs : List α) (k : Nat) :
    combinations (x :: xs) (k + 1) =
      (combinations xs k).map (x :: ·) ++ combinations xs (k + 1) := rfl

/-- Weighted sums over the combination lists of two permuted input lists
agree whenever the weights agree on permuted candidates.  This is the core
of the order-independence of the enumeration count. -/
theorem sum_combinations_congr :
    ∀ {people people' : List Person}, people.Perm people' →
      ∀ (s : Nat) (w w' : List Person → Nat),
        (∀ T T', T.Perm T' → w T = w' T') →
        ((combinations people s).map w).sum = ((combinations people' s).map w').sum := by
  intro people people' h
  induction h with
  | nil =>
    intro s w w' hww
    cases s with
    | zero => simpa using hww [] [] (List.Perm.refl [])
    | succ s => simp [combinations]
  | @cons x l₁ l₂ h ihp =>
    intro s w w' hww
    cases s with
    | zero => simpa [combinations_zero] using hww [] [] (List.Perm.refl [])
    | succ s =>
      have e1 : combinations (x :: l₁) (s + 1) =
          (combinations l₁ s).map (x :: ·) ++ combinations l₁ (s + 1) := rfl
      have e2 : combinations (x :: l₂) (s + 1) =
          (combinations l₂ s).map (x :: ·) ++ combinations l₂ (s + 1) := rfl
      have hmap : ∀ (z : Person) (L : List (List Person)) (f : List Person → Nat),
          (List.map f (L.map (z :: ·))).sum = (L.map (fun T => f (z :: T))).sum := by
        intro z L f; rw [List.map_map]; rfl
      rw [e1, e2, List.map_append, List.sum_append, List.map_append, List.sum_append,
        hmap x _ w, hmap x _ w',
        ihp s (fun T => w (x :: T)) (fun T => w' (x :: T))
          (fun T T' hp => hww _ _ (hp.cons x)),
        ihp (s + 1) w w' hww]
  | @swap x y l =>
    intro s w w' hww
    have hrefl : ∀ T, w T = w' T := fun T => hww T T (List.Perm.refl T)
    have hmapc : ∀ (z : Person) (L : List (List Person)) (f : List Person → Nat),
        (List.map f (L.map (z :: ·))).sum = (L.map (fun T => f (z :: T))).sum := by
      intro z L f; rw [List.map_map]; rfl
    cases s with
    | zero => simpa [combinations_zero] using hrefl []
    | succ s =>
      cases s with
      | zero =>
        have e1 : combinations (y :: x :: l) (0 + 1) =
            [[y]] ++ ([[x]] ++ combinations l (0 + 1)) := by
          rw [combinations_succ_cons, combinations_succ_cons, combinations_zero,
            combinations_zero]
          rfl
        have e2 : combinations (x :: y :: l) (0 + 1) =
            [[x]] ++ ([[y]] ++ combinations l (0 + 1)) := by
          rw [combinations_succ_cons, combinations_succ_cons, combinations_zero,
            combinations_zero]
          rfl
        have c4 : ((combinations l (0 + 1)).map w).sum =
            ((combinations l (0 + 1)).map w').sum :=
          congrArg List.sum (List.map_congr_left (fun T _ => hrefl T))
        rw [e1, e2, List.map_append, List.sum_append, List.map_append, List.sum_append,
          List.map_append, List.sum_append, List.map_append, List.sum_append]
        simp only [List.map_cons, List.map_nil, List.sum_cons, List.sum_nil]
        rw [hrefl [y], hrefl [x], c4]
        omega
      | succ s' =>
        have e1 : combinations (y :: x :: l) (s' + 1 + 1) =
            ((combinations l s').map (x :: ·) ++ combinations l (s' + 1)).map (y :: ·)
              ++ ((combinations l (s' + 1)).map (x :: ·) ++ combinations l (s' + 1 + 1)) := by
          rw [combinations_succ_cons, combinations_succ_cons, combinations_succ_cons]
        have e2 : combinations (x :: y :: l) (s' + 1 + 1) =
            ((combinations l s').map (y :: ·) ++ combinations l (s' + 1)).map (x :: ·)
              ++ ((combinations l (s' + 1)).map (y :: ·) ++ combinations l (s' + 1 + 1)) := by
          rw [combinations_succ_cons, combinations_succ_cons, combinations_succ_cons]
        have hm2 : ∀ (z1 z2 : Person) (L : List (List Person)) (f : List Person → Nat),
            (List.map f ((L.map (z2 :: ·)).map (z1 :: ·))).sum =
              (L.map (fun T => f (z1 :: z2 :: T))).sum := by
          intro z1 z2 L f; rw [List.map_map, List.map_map]; rfl
        rw [e1, e2]
        simp only [List.map_append, List.sum_append]
        rw [hm2 y x _ w, hm2 x y _ w', hmapc y _ w, hmapc x _ w, hmapc x _ w',
          hmapc y _ w']
        have c1 : ((combinations l s').map (fun T => w (y :: x :: T))).sum =
            ((combinations l s').map (fun T => w' (x :: y :: T))).sum :=
          congrArg List.sum (List.map_congr_left
            (fun T _ => hww _ _ (List.Perm.swap x y T)))
        have c2 : ((combinations l (s' + 1)).map (fun T => w (x :: T))).sum =
            ((combinations l (s' + 1)).map (fun T => w' (x :: T))).sum :=
          congrArg List.sum (List.map_congr_left (fun T _ => hrefl _))
        have c3 : ((combinations l (s' + 1)).map (fun T => w (y :: T))).sum =
            ((combinations l (s' + 1)).map (fun T => w' (y :: T))).sum :=
          congrArg List.sum (List.map_congr_left (fun T _ => hrefl _))
        have c4 : ((combinations l (s' + 1 + 1)).map w).sum =
            ((combinations l (s' + 1 + 1)).map w').sum :=
          congrArg List.sum (List.map_congr_left (fun T _ => hrefl T))
        rw [c1, c2, c3, c4]
        omega
  | @trans l₁ l₂ l₃ h1 h2 ih1 ih2 =>
    intro s w w' hww
    have hself : ∀ T T', T.Perm T' → w T = w T' := fun T T' hp =>
      (hww T T' hp).trans (hww T' T' (List.Perm.refl T')).symm
    exact (ih1 s w w hself).trans (ih2 s w w' hww)

/-- The number of generated canonical partitions does not depend on the
order in which the people are listed. -/
theorem okLength_genP_perm :
    ∀ (teamSizes : List Nat), (∀ s ∈ teamSizes, 0 < s) →
      ∀ {people people' : List Person}, people.Perm people' →
        ∀ (lastMinId : Option String),
          okLength (generatePartitions people teamSizes lastMinId) =
            okLength (generatePartitions people' teamSizes lastMinId) := by
  intro teamSizes
  induction teamSizes with
  | nil => intro _ people people' _ lastMinId; rfl
  | cons s0 rest ih =>
    intro hpos people people' hperm lastMinId
    rw [okLength_genP_cons s0 rest hpos, okLength_genP_cons s0 rest hpos]
    apply sum_combinations_congr hperm s0
    intro T T' hTT
    unfold candWeight
    rw [minIdInTeam_perm hTT]
    cases minIdInTeam T' with
    | none => rfl
    | some m =>
      simp only
      by_cases hskip : skipByThreshold lastMinId m
      · rw [if_pos hskip, if_pos hskip]
      · rw [if_neg hskip, if_neg hskip]
        have hfe : people.filter (fun p => ¬ T.contains p) =
            people.filter (fun p => ¬ T'.contains p) := by
          apply List.filter_congr
          intro p _
          simp [hTT.mem_iff]
        rw [hfe]
        exact ih (fun s hs => hpos s (by simp [hs]))
          (hperm.filter (fun p => ¬ T'.contains p)) _

/-- Whether an id is strictly above the (optional) threshold, and hence
usable for the next team of the current equal-size run. -/
def aboveId (t : Option String) (x : String) : Bool :=
  match t with
  | none => true
  | some v => strLt v x

/-- Skipping is exactly failing to be above the threshold. -/
theorem skip_eq_not_aboveId (t : Option String) (x : String) :
    skipByThreshold t x = ! aboveId t x := by
  cases t <;> simp [skipByThreshold, aboveId]

/-- Count of canonical fillings: E sizes u m counts the partitions generated
from a state with m usable people (ids above the current threshold) and u
unusable ones, for the remaining size list.  The recursion peels the
smallest usable person: either it leads the next team (choose its s-1
teammates among the m-1 larger usable ids) or it is left out, becoming
unusable for the rest of the current run. -/
def E (sizes : List Nat) (u m : Nat) : Nat :=
  match sizes, u, m with
  | [], _, _ => 1
  | _ :: _, _, 0 => 0
  | s :: rest, u, m + 1 =>
    Nat.choose m (s - 1) *
      (if rest.head? = some s then E rest u (m + 1 - s) else E rest 0 (u + (m + 1) - s)) +
    E (s :: rest) (u + 1) m
  termination_by (sizes, m)

/-- Equation: the empty size list admits exactly the empty partition. -/
theorem E_nil (u m : Nat) : E [] u m = 1 := by simp [E]

/-- Equation: no usable people and a pending positive team give no
partitions. -/
theorem E_zero (s : Nat) (rest : List Nat) (u : Nat) : E (s :: rest) u 0 = 0 := by
  simp [E]

/-- Equation: peeling the smallest usable person. -/
theorem E_succ (s : Nat) (rest : List Nat) (u m : Nat) :
    E (s :: rest) u (m + 1) =
      Nat.choose m (s - 1) *
        (if rest.head? = some s then E rest u (m + 1 - s) else E rest 0 (u + (m + 1) - s)) +
      E (s :: rest) (u + 1) m := by
  rw [E]

/-- Sum of a constant map. -/
theorem sum_map_const {α : Type} (l : List α) (c : Nat) :
    (l.map (fun _ => c)).sum = l.length * c := by
  induction l with
  | nil => simp
  | cons x xs ih => simp [ih]; ring

/-- Strictly increasing ids give a duplicate-free list. -/
theorem pairwise_lt_nodup {P : List Person}
    (h : P.Pairwise (fun a b => a.id < b.id)) : P.Nodup := by
  refine h.imp ?_
  intro a b hab
  intro he
  rw [he] at hab
  exact lt_irrefl _ hab

/-- Removing a selection leaves exactly the complement count. -/
theorem filter_not_contains_length {T P : List Person} (hT : T.Sublist P) (hnd : P.Nodup) :
    (P.filter (fun p => ¬ T.contains p)).length = P.length - T.length := by
  have hlen := (sublist_append_filter_perm hT hnd).length_eq
  rw [List.length_append] at hlen
  omega

/-- Dropping the head of both the people and the team from the complement
filter. -/
theorem filter_cons_team {y : Person} {ys T : List Person}
    (hy : y ∉ ys) (hT : T.Sublist ys) :
    (y :: ys).filter (fun p => ¬ (y :: T).contains p) =
      ys.filter (fun p => ¬ T.contains p) := by
  rw [List.filter_cons]
  rw [if_neg (by simp)]
  apply List.filter_congr
  intro p hp
  have hpy : p ≠ y := fun h => hy (h ▸ hp)
  simp [hpy]

/-- The per-candidate weight in count form: 0 for a skipped candidate, the
E-count of the recursive state otherwise, with extraU already-passed people
below every remaining id. -/
def wgt (s0 : Nat) (rest : List Nat) (t : Option String) (extraU : Nat)
    (P : List Person) (T : List Person) : Nat :=
  match minIdInTeam T with
  | none => 0
  | some minId =>
    if skipByThreshold t minId then 0
    else
      if rest.head? = some s0 then
        E rest (extraU + ((P.filter (fun p => ¬ T.contains p)).filter
            (fun p => ! aboveId (some minId) p.id)).length)
          (((P.filter (fun p => ¬ T.contains p)).filter
            (fun p => aboveId (some minId) p.id)).length)
      else E rest 0 (extraU + (P.filter (fun p => ¬ T.contains p)).length)

/-- wgt on a skipped candidate. -/
theorem wgt_skip (s0 : Nat) (rest : List Nat) (t : Option String) (extraU : Nat)
    (P T : List Person) (μ : String) (h : minIdInTeam T = some μ)
    (hs : skipByThreshold t μ = true) : wgt s0 rest t extraU P T = 0 := by
  simp [wgt, h, hs]

/-- wgt on an accepted candidate when the next size matches. -/
theorem wgt_go_same (s0 : Nat) (rest : List Nat) (t : Option String) (extraU : Nat)
    (P T : List Person) (μ : String) (h : minIdInTeam T = some μ)
    (hs : skipByThreshold t μ = false) (hn : rest.head? = some s0) :
    wgt s0 rest t extraU P T =
      E rest (extraU + ((P.filter (fun p => ¬ T.contains p)).filter
          (fun p => ! aboveId (some μ) p.id)).length)
        (((P.filter (fun p => ¬ T.contains p)).filter
          (fun p => aboveId (some μ) p.id)).length) := by
  simp [wgt, h, hs, hn]

/-- wgt on an accepted candidate when the run ends. -/
theorem wgt_go_diff (s0 : Nat) (rest : List Nat) (t : Option String) (extraU : Nat)
    (P T : List Person) (μ : String) (h : minIdInTeam T = some μ)
    (hs : skipByThreshold t μ = false) (hn : ¬ rest.head? = some s0) :
    wgt s0 rest t extraU P T =
      E rest 0 (extraU + (P.filter (fun p => ¬ T.contains p)).length) := by
  simp [wgt, h, hs, hn]

/-- candWeight on a skipped candidate. -/
theorem candWeight_skip (people : List Person) (s0 : Nat) (rest : List Nat)
    (t : Option String) (T : List Person) (μ : String) (h : minIdInTeam T = some μ)
    (hs : skipByThreshold t μ = true) : candWeight people s0 rest t T = 0 := by
  simp [candWeight, h, hs]

/-- candWeight on an accepted candidate. -/
theorem candWeight_go (people : List Person) (s0 : Nat) (rest : List Nat)
    (t : Option String) (T : List Person) (μ : String) (h : minIdInTeam T = some μ)
    (hs : skipByThreshold t μ = false) :
    candWeight people s0 rest t T =
      okLength (generatePartitions (people.filter (fun p => ¬ T.contains p)) rest
        (if rest.head? = some s0 then some μ else none)) := by
  simp [candWeight, h, hs]

/-- Congruence for the count in its numeric arguments. -/
theorem E_congr (sizes : List Nat) {u u' m m' : Nat} (h1 : u = u') (h2 : m = m') :
    E sizes u m = E sizes u' m' := by
  rw [h1, h2]

/-- Peeling lemma: on a strictly id-sorted people list, the candidate-level
weight sum for one team equals the recursive count E, with the people split
by the incoming threshold into usable and unusable ones. -/
theorem sum_wgt :
    ∀ (P : List Person), P.Pairwise (fun a b => a.id < b.id) →
      ∀ (s' : Nat) (rest : List Nat) (t : Option String) (extraU : Nat),
      ((combinations P (s' + 1)).map (wgt (s' + 1) rest t extraU P)).sum =
        E ((s' + 1) :: rest)
          (extraU + (P.filter (fun p => ! aboveId t p.id)).length)
          ((P.filter (fun p => aboveId t p.id)).length) := by
  intro P
  induction P with
  | nil =>
    intro _ s' rest t extraU
    simp [combinations, E_zero]
  | cons y ys ih =>
    intro hP s' rest t extraU
    have hyys : ∀ q ∈ ys, y.id < q.id := (List.pairwise_cons.mp hP).1
    have hys : ys.Pairwise (fun a b => a.id < b.id) := (List.pairwise_cons.mp hP).2
    have hynotin : y ∉ ys := fun h => lt_irrefl _ (hyys y h)
    rw [combinations_succ_cons, List.map_append, List.sum_append, List.map_map]
    have hsecond : ((combinations ys (s' + 1)).map
        (wgt (s' + 1) rest t extraU (y :: ys))).sum =
        ((combinations ys (s' + 1)).map (wgt (s' + 1) rest t (extraU + 1) ys)).sum := by
      apply congrArg List.sum
      apply List.map_congr_left
      intro T hT
      obtain ⟨hTs, hTl⟩ := mem_combinations_sublist_length hT
      have hTne : T ≠ [] := by
        intro h
        rw [h] at hTl
        simp at hTl
      obtain ⟨μ, hμ⟩ := minIdInTeam_isSome T hTne
      have hyT : y ∉ T := fun h => hynotin (hTs.subset h)
      have hcompl : (y :: ys).filter (fun p => ¬ T.contains p) =
          y :: ys.filter (fun p => ¬ T.contains p) := by
        rw [List.filter_cons, if_pos (by simp [hyT])]
      have hyμ : y.id < μ := by
        obtain ⟨hmem, _⟩ := minIdInTeam_spec T μ hμ
        obtain ⟨q, hqT, rfl⟩ := List.mem_map.mp hmem
        exact hyys q (hTs.subset hqT)
      by_cases hskip : skipByThreshold t μ = true
      · rw [wgt_skip _ _ _ _ _ _ _ hμ hskip, wgt_skip _ _ _ _ _ _ _ hμ hskip]
      · have hskipF : skipByThreshold t μ = false := by simpa using hskip
        by_cases hnext : rest.head? = some (s' + 1)
        · rw [wgt_go_same _ _ _ _ _ _ _ hμ hskipF hnext,
            wgt_go_same _ _ _ _ _ _ _ hμ hskipF hnext, hcompl]
          have hyab2 : aboveId (some μ) y.id = false :=
            (strLt_eq_false_iff _ _).mpr (lt_asymm hyμ)
          rw [List.filter_cons, if_pos (by simp [hyab2])]
          rw [List.filter_cons, if_neg (by simp [hyab2])]
          simp only [List.length_cons]
          apply E_congr
          · omega
          · rfl
        · rw [wgt_go_diff _ _ _ _ _ _ _ hμ hskipF hnext,
            wgt_go_diff _ _ _ _ _ _ _ hμ hskipF hnext, hcompl]
          simp only [List.length_cons]
          apply E_congr
          · rfl
          · omega
    rw [hsecond, ih hys s' rest t (extraU + 1)]
    by_cases hyab : aboveId t y.id = true
    · have hallab : ∀ q ∈ ys, aboveId t q.id = true := by
        intro q hq
        cases t with
        | none => rfl
        | some v =>
          show strLt v q.id = true
          have hv : v < y.id := (strLt_iff _ _).mp hyab
          exact (strLt_iff _ _).mpr (lt_trans hv (hyys q hq))
      have hfilys_above : ys.filter (fun p => aboveId t p.id) = ys :=
        List.filter_eq_self.mpr hallab
      have hfilys_not : ys.filter (fun p => ! aboveId t p.id) = [] :=
        List.filter_eq_nil_iff.mpr (fun p hp => by simp [hallab p hp])
      have hgoal_above : (y :: ys).filter (fun p => aboveId t p.id) = y :: ys := by
        rw [List.filter_cons, if_pos (by simp [hyab]), hfilys_above]
      have hgoal_not : (y :: ys).filter (fun p => ! aboveId t p.id) = [] := by
        rw [List.filter_cons, if_neg (by simp [hyab]), hfilys_not]
      rw [hfilys_not, hfilys_above, hgoal_not, hgoal_above]
      simp only [List.length_nil, Nat.add_zero, List.length_cons]
      rw [E_succ]
      have hconst : ∀ T' ∈ combinations ys s',
          wgt (s' + 1) rest t extraU (y :: ys) (y :: T') =
            (if rest.head? = some (s' + 1) then E rest extraU (ys.length - s')
             else E rest 0 (extraU + (ys.length - s'))) := by
        intro T' hT'
        obtain ⟨hT's, hT'l⟩ := mem_combinations_sublist_length hT'
        have hmin : minIdInTeam (y :: T') = some y.id :=
          minIdInTeam_sorted_head y T' (fun q hq => hyys q (hT's.subset hq))
        have hskipF : skipByThreshold t y.id = false := by
          rw [skip_eq_not_aboveId, hyab]
          rfl
        have hcompl : (y :: ys).filter (fun p => ¬ (y :: T').contains p) =
            ys.filter (fun p => ¬ T'.contains p) := filter_cons_team hynotin hT's
        have hclen : (ys.filter (fun p => ¬ T'.contains p)).length = ys.length - s' := by
          rw [filter_not_contains_length hT's (pairwise_lt_nodup hys), hT'l]
        by_cases hnext : rest.head? = some (s' + 1)
        · rw [wgt_go_same _ _ _ _ _ _ _ hmin hskipF hnext, if_pos hnext, hcompl]
          have hab : (ys.filter (fun p => ¬ T'.contains p)).filter
              (fun p => aboveId (some y.id) p.id) =
                ys.filter (fun p => ¬ T'.contains p) := by
            apply List.filter_eq_self.mpr
            intro p hp
            show strLt y.id p.id = true
            exact (strLt_iff _ _).mpr (hyys p (List.mem_of_mem_filter hp))
          have hnab : (ys.filter (fun p => ¬ T'.contains p)).filter
              (fun p => ! aboveId (some y.id) p.id) = [] := by
            apply List.filter_eq_nil_iff.mpr
            intro p hp
            have hpt : strLt y.id p.id = true :=
              (strLt_iff _ _).mpr (hyys p (List.mem_of_mem_filter hp))
            show ¬ (! aboveId (some y.id) p.id) = true
            have hpt2 : aboveId (some y.id) p.id = true := hpt
            simp [hpt2]
          rw [hab, hnab, hclen]
          simp only [List.length_nil, Nat.add_zero]
        · rw [wgt_go_diff _ _ _ _ _ _ _ hmin hskipF hnext, if_neg hnext, hcompl, hclen]
      have hfc : List.map (wgt (s' + 1) rest t extraU (y :: ys) ∘ fun T => y :: T)
          (combinations ys s') =
          List.map (fun _ => (if rest.head? = some (s' + 1) then
              E rest extraU (ys.length - s')
            else E rest 0 (extraU + (ys.length - s')))) (combinations ys s') := by
        apply List.map_congr_left
        intro T' hT'
        exact hconst T' hT'
      rw [hfc, sum_map_const, length_combinations]
      by_cases hnext : rest.head? = some (s' + 1)
      · rw [if_pos hnext, if_pos hnext]
        have h1 : ys.length + 1 - (s' + 1) = ys.length - s' := by omega
        have h2 : (s' + 1) - 1 = s' := by omega
        rw [h1, h2]
      · rw [if_neg hnext, if_neg hnext]
        have h2 : (s' + 1) - 1 = s' := by omega
        rw [h2]
        by_cases hsz : s' ≤ ys.length
        · have h3 : extraU + (ys.length + 1) - (s' + 1) = extraU + (ys.length - s') := by
            omega
          rw [h3]
        · have hc0 : ys.length.choose s' = 0 := Nat.choose_eq_zero_of_lt (by omega)
          rw [hc0]
          simp
    · have hyab' : aboveId t y.id = false := by simpa using hyab
      have hfirst0 : (List.map (wgt (s' + 1) rest t extraU (y :: ys) ∘ fun T => y :: T)
          (combinations ys s')).sum = 0 := by
        apply List.sum_eq_zero
        intro n hn
        obtain ⟨T', hT', rfl⟩ := List.mem_map.mp hn
        obtain ⟨hT's, _⟩ := mem_combinations_sublist_length hT'
        have hmin : minIdInTeam (y :: T') = some y.id :=
          minIdInTeam_sorted_head y T' (fun q hq => hyys q (hT's.subset hq))
        show wgt (s' + 1) rest t extraU (y :: ys) (y :: T') = 0
        apply wgt_skip _ _ _ _ _ _ _ hmin
        rw [skip_eq_not_aboveId, hyab']
        rfl
      rw [hfirst0, Nat.zero_add]
      have hg1 : (y :: ys).filter (fun p => ! aboveId t p.id) =
          y :: ys.filter (fun p => ! aboveId t p.id) := by
        rw [List.filter_cons, if_pos (by simp [hyab'])]
      have hg2 : (y :: ys).filter (fun p => aboveId t p.id) =
          ys.filter (fun p => aboveId t p.id) := by
        rw [List.filter_cons, if_neg (by simp [hyab'])]
      rw [hg1, hg2]
      simp only [List.length_cons]
      apply E_congr
      · omega
      · rfl

/-- Closed form for a single team size at the end of its run: choose the
team among the usable pool, then everything joins the reset pool. -/
theorem E_single (s : Nat) (hs : 1 ≤ s) (rest : List Nat) (hrest : ¬ rest.head? = some s) :
    ∀ (m u : Nat), E (s :: rest) u m = Nat.choose m s * E rest 0 (u + (m - s)) := by
  intro m
  induction m with
  | zero =>
    intro u
    rw [E_zero]
    rw [Nat.choose_eq_zero_of_lt hs, Nat.zero_mul]
  | succ m ih =>
    intro u
    rw [E_succ, if_neg hrest, ih (u + 1)]
    obtain ⟨s', rfl⟩ : ∃ s', s = s' + 1 := ⟨s - 1, by omega⟩
    by_cases h1 : s' + 1 ≤ m
    · have e1 : u + (m + 1) - (s' + 1) = u + (m + 1 - (s' + 1)) := by omega
      have e2 : u + 1 + (m - (s' + 1)) = u + (m + 1 - (s' + 1)) := by omega
      have e3 : (s' + 1) - 1 = s' := by omega
      rw [e1, e2, e3, ← Nat.add_mul, Nat.choose_succ_succ]
    · have hcm : Nat.choose m (s' + 1) = 0 := Nat.choose_eq_zero_of_lt (by omega)
      rw [hcm, Nat.zero_mul, Nat.add_zero]
      by_cases h2 : m = s'
      · subst h2
        have e4 : (m + 1) - 1 = m := by omega
        have e5 : u + (m + 1) - (m + 1) = u := by omega
        have e6 : u + (m + 1 - (m + 1)) = u := by omega
        rw [e4, e5, e6, Nat.choose_self, Nat.choose_self]
      · have hc1 : Nat.choose m ((s' + 1) - 1) = 0 := Nat.choose_eq_zero_of_lt (by omega)
        have hc2 : Nat.choose (m + 1) (s' + 1) = 0 := Nat.choose_eq_zero_of_lt (by omega)
        rw [hc1, hc2, Nat.zero_mul, Nat.zero_mul]

/-- A q s is the number of ways to order-canonically split q*s people with
fixed distinct markers into q teams of size s within one equal-size run:
each new team is led by the currently smallest remaining person. -/
def A : Nat → Nat → Nat
  | 0, _ => 1
  | q + 1, s => Nat.choose (q * s + s - 1) (s - 1) * A q s

/-- Closed form for a maximal run of q+1 equal team sizes s. -/
theorem E_run (s : Nat) (hs : 1 ≤ s) (rest : List Nat) (hrest : ¬ rest.head? = some s) :
    ∀ (q m u : Nat),
      E (List.replicate (q + 1) s ++ rest) u m =
        Nat.choose m ((q + 1) * s) * A (q + 1) s * E rest 0 (u + (m - (q + 1) * s)) := by
  intro q
  induction q with
  | zero =>
    intro m u
    have hrep : List.replicate (0 + 1) s ++ rest = s :: rest := by simp
    have hA : A (0 + 1) s = 1 := by
      show Nat.choose (0 * s + s - 1) (s - 1) * A 0 s = 1
      have e0 : 0 * s + s - 1 = s - 1 := by omega
      rw [e0, Nat.choose_self]
      rfl
    have e01 : (0 + 1) * s = s := by omega
    rw [hrep, E_single s hs rest hrest m u, hA, Nat.mul_one, e01]
  | succ q ihq =>
    intro m
    induction m with
    | zero =>
      intro u
      have hrep : List.replicate (q + 1 + 1) s ++ rest =
          s :: (List.replicate (q + 1) s ++ rest) := by
        rw [List.replicate_succ]
        rfl
      rw [hrep, E_zero]
      have hc : Nat.choose 0 ((q + 1 + 1) * s) = 0 :=
        Nat.choose_eq_zero_of_lt (Nat.mul_pos (by omega) hs)
      rw [hc, Nat.zero_mul, Nat.zero_mul]
    | succ m ihm =>
      intro u
      have hrep : List.replicate (q + 1 + 1) s ++ rest =
          s :: (List.replicate (q + 1) s ++ rest) := by
        rw [List.replicate_succ]
        rfl
      have hhead : (List.replicate (q + 1) s ++ rest).head? = some s := by
        rw [List.replicate_succ]
        rfl
      rw [hrep, E_succ, if_pos hhead, ihq (m + 1 - s) u, ← hrep, ihm (u + 1)]
      have hA : A (q + 1 + 1) s = Nat.choose ((q + 1) * s + s - 1) (s - 1) * A (q + 1) s :=
        rfl
      have hQs : (q + 1 + 1) * s = (q + 1) * s + s := Nat.succ_mul (q + 1) s
      rw [hA, hQs]
      by_cases hcase : (q + 1) * s + s ≤ m + 1
      · by_cases hc2 : (q + 1) * s + s ≤ m
        · have e1 : u + (m + 1 - s - (q + 1) * s) = u + (m + 1 - ((q + 1) * s + s)) := by
            omega
          have e2 : u + 1 + (m - ((q + 1) * s + s)) = u + (m + 1 - ((q + 1) * s + s)) := by
            omega
          rw [e1, e2]
          obtain ⟨r, hr⟩ : ∃ r, (q + 1) * s + s = r + 1 := ⟨(q + 1) * s + s - 1, by omega⟩
          rw [hr, Nat.choose_succ_succ m r, Nat.succ_eq_add_one]
          have hr1 : r + 1 - 1 = r := by omega
          rw [hr1]
          have hkey : Nat.choose m (s - 1) * Nat.choose (m + 1 - s) ((q + 1) * s) =
              Nat.choose m r * Nat.choose r (s - 1) := by
            have hrm : r ≤ m := by omega
            have hsr : s - 1 ≤ r := by omega
            rw [Nat.choose_mul hrm hsr]
            have e3 : m - (s - 1) = m + 1 - s := by omega
            have e4 : r - (s - 1) = (q + 1) * s := by omega
            rw [e3, e4]
          calc Nat.choose m (s - 1) *
              (Nat.choose (m + 1 - s) ((q + 1) * s) * A (q + 1) s *
                E rest 0 (u + (m + 1 - (r + 1)))) +
              Nat.choose m (r + 1) * (Nat.choose r (s - 1) * A (q + 1) s) *
                E rest 0 (u + (m + 1 - (r + 1)))
              = (Nat.choose m (s - 1) * Nat.choose (m + 1 - s) ((q + 1) * s) +
                  Nat.choose m (r + 1) * Nat.choose r (s - 1)) *
                  (A (q + 1) s * E rest 0 (u + (m + 1 - (r + 1)))) := by ring
            _ = (Nat.choose m r * Nat.choose r (s - 1) +
                  Nat.choose m (r + 1) * Nat.choose r (s - 1)) *
                  (A (q + 1) s * E rest 0 (u + (m + 1 - (r + 1)))) := by rw [hkey]
            _ = (Nat.choose m r + Nat.choose m (r + 1)) * (Nat.choose r (s - 1) * A (q + 1) s) *
                  E rest 0 (u + (m + 1 - (r + 1))) := by ring
        · have heq : (q + 1) * s + s = m + 1 := by omega
          have hc0 : Nat.choose m ((q + 1) * s + s) = 0 :=
            Nat.choose_eq_zero_of_lt (by omega)
          rw [hc0, Nat.zero_mul, Nat.zero_mul, Nat.add_zero]
          have e1 : u + (m + 1 - s - (q + 1) * s) = u := by omega
          have e2 : u + (m + 1 - ((q + 1) * s + s)) = u := by omega
          have e3 : m + 1 - s = (q + 1) * s := by omega
          have e4 : (q + 1) * s + s - 1 = m := by omega
          rw [e1, e2, e3, e4]
          have e5 : (q + 1) * s + s = m + 1 := heq
          rw [e5, Nat.choose_self, Nat.choose_self]
          ring
      · have hz1 : Nat.choose (m + 1) ((q + 1) * s + s) = 0 :=
          Nat.choose_eq_zero_of_lt (by omega)
        have hz2 : Nat.choose m ((q + 1) * s + s) = 0 :=
          Nat.choose_eq_zero_of_lt (by omega)
        rw [hz1, hz2, Nat.zero_mul, Nat.zero_mul, Nat.zero_mul, Nat.add_zero]
        by_cases hs2 : s ≤ m + 1
        · have hz3 : Nat.choose (m + 1 - s) ((q + 1) * s) = 0 :=
            Nat.choose_eq_zero_of_lt (by omega)
          rw [hz3, Nat.zero_mul, Nat.zero_mul, Nat.mul_zero]
        · have hz4 : Nat.choose m (s - 1) = 0 := Nat.choose_eq_zero_of_lt (by omega)
          rw [hz4, Nat.zero_mul]

/-- The in-run count A q s satisfies A q s * (s!)^q * q! = (q*s)!. -/
theorem A_factorial (s : Nat) (hs : 1 ≤ s) :
    ∀ q : Nat, A q s * (Nat.factorial s) ^ q * Nat.factorial q = Nat.factorial (q * s) := by
  intro q
  induction q with
  | zero =>
    show 1 * (Nat.factorial s) ^ 0 * 1 = Nat.factorial (0 * s)
    have e : 0 * s = 0 := by omega
    rw [e]
    simp
  | succ q ih =>
    have hA : A (q + 1) s = Nat.choose (q * s + s - 1) (s - 1) * A q s := rfl
    rw [hA, pow_succ, Nat.factorial_succ]
    obtain ⟨s', rfl⟩ : ∃ s', s = s' + 1 := ⟨s - 1, by omega⟩
    have e1 : q * (s' + 1) + (s' + 1) - 1 = q * (s' + 1) + s' := by omega
    have e2 : (s' + 1) - 1 = s' := by omega
    rw [e1, e2]
    have hcf := Nat.choose_mul_factorial_mul_factorial
      (show s' ≤ q * (s' + 1) + s' by omega)
    have e3 : q * (s' + 1) + s' - s' = q * (s' + 1) := by omega
    rw [e3] at hcf
    have key1 : Nat.choose (q * (s' + 1) + s') s' * A q (s' + 1) *
        (Nat.factorial (s' + 1) ^ q * Nat.factorial (s' + 1)) *
        ((q + 1) * Nat.factorial q) =
        (A q (s' + 1) * Nat.factorial (s' + 1) ^ q * Nat.factorial q) *
          (Nat.choose (q * (s' + 1) + s') s' * Nat.factorial (s' + 1) * (q + 1)) := by
      ring
    rw [key1, ih, Nat.factorial_succ s']
    have key2 : Nat.factorial (q * (s' + 1)) *
        (Nat.choose (q * (s' + 1) + s') s' * ((s' + 1) * Nat.factorial s') * (q + 1)) =
        (Nat.choose (q * (s' + 1) + s') s' * Nat.factorial s' *
          Nat.factorial (q * (s' + 1))) * ((s' + 1) * (q + 1)) := by
      ring
    rw [key2, hcf]
    have e4 : (q + 1) * (s' + 1) = (q * (s' + 1) + s') + 1 := by ring
    rw [e4, Nat.factorial_succ]
    have e5 : (s' + 1) * (q + 1) = q * (s' + 1) + s' + 1 := by ring
    rw [e5, Nat.mul_comm]

/-- Helper for computing maximal-run lengths: x is the value of the current
run and k the number of its occurrences seen so far. -/
def runLengthsAux (x : Nat) (k : Nat) : List Nat → List Nat
  | [] => [k]
  | y :: ys => if y = x then runLengthsAux x (k + 1) ys else k :: runLengthsAux y 1 ys

/-- Lengths of the maximal runs of adjacent equal values. -/
def runLengths : List Nat → List Nat
  | [] => []
  | x :: xs => runLengthsAux x 1 xs

/-- The run accumulator absorbs a replicate prefix. -/
theorem runLengthsAux_replicate (x : Nat) :
    ∀ (q k : Nat) (rest : List Nat),
      runLengthsAux x k (List.replicate q x ++ rest) = runLengthsAux x (k + q) rest := by
  intro q
  induction q with
  | zero =>
    intro k rest
    rfl
  | succ q ih =>
    intro k rest
    rw [List.replicate_succ]
    show runLengthsAux x k (x :: (List.replicate q x ++ rest)) = _
    rw [runLengthsAux, if_pos rfl, ih (k + 1) rest]
    have e : k + 1 + q = k + (q + 1) := by omega
    rw [e]

/-- The run accumulator closes the current run at a value change. -/
theorem runLengthsAux_close (x k : Nat) (rest : List Nat)
    (h : ¬ rest.head? = some x) :
    runLengthsAux x k rest = k :: runLengths rest := by
  cases rest with
  | nil => rfl
  | cons y ys =>
    have hyx : ¬ y = x := by
      intro he
      exact h (by rw [he]; rfl)
    rw [runLengthsAux, if_neg hyx]
    rfl

/-- Run lengths of a list starting with a maximal run. -/
theorem runLengths_run (x q : Nat) (rest : List Nat) (h : ¬ rest.head? = some x) :
    runLengths (List.replicate (q + 1) x ++ rest) = (q + 1) :: runLengths rest := by
  rw [List.replicate_succ]
  show runLengthsAux x 1 (List.replicate q x ++ rest) = _
  rw [runLengthsAux_replicate x q 1 rest, runLengthsAux_close x (1 + q) rest h]
  have e : 1 + q = q + 1 := by omega
  rw [e]

/-- Every non-empty list decomposes as its first maximal run followed by a
rest starting with a different value. -/
theorem runDecomp :
    ∀ (xs : List Nat) (x : Nat), ∃ q rest, x :: xs = List.replicate (q + 1) x ++ rest ∧
      ¬ rest.head? = some x := by
  intro xs
  induction xs with
  | nil =>
    intro x
    refine ⟨0, [], by simp, by simp⟩
  | cons y ys ih =>
    intro x
    by_cases hxy : y = x
    · subst hxy
      obtain ⟨q, rest, heq, hh⟩ := ih y
      refine ⟨q + 1, rest, ?_, hh⟩
      rw [List.replicate_succ]
      show y :: (y :: ys) = y :: (List.replicate (q + 1) y ++ rest)
      rw [← heq]
    · refine ⟨0, y :: ys, by simp, by simp [hxy]⟩

/-- The source's foldl-based size sum agrees with List.sum. -/
theorem sum_eq_foldl (l : List Nat) : l.sum = l.foldl (· + ·) 0 := by
  induction l with
  | nil => rfl
  | cons x xs ih =>
    rw [List.sum_cons, ih, List.foldl_cons, foldl_add_shift xs (0 + x)]
    omega

/-- Master counting formula: over a pool of m people with all sizes
positive and fitting into the pool, the count E sizes 0 m times the
factorials of the sizes, of the run lengths and of the leftover pool is m!.
The parameter n bounds the recursion depth over the size list. -/
theorem E_formula :
    ∀ (n : Nat) (sizes : List Nat), sizes.length ≤ n → (∀ s ∈ sizes, 0 < s) →
      ∀ (m : Nat), sizes.sum ≤ m →
        E sizes 0 m * (Nat.factorial (m - sizes.sum) *
          ((sizes.map Nat.factorial).prod * ((runLengths sizes).map Nat.factorial).prod)) =
          Nat.factorial m := by
  intro n
  induction n with
  | zero =>
    intro sizes hlen _ m hsum
    cases sizes with
    | nil =>
      rw [E_nil]
      simp [runLengths]
    | cons x xs => simp at hlen
  | succ n ihn =>
    intro sizes hlen hpos m hsum
    cases sizes with
    | nil =>
      rw [E_nil]
      simp [runLengths]
    | cons x xs =>
      obtain ⟨q, rest, heq, hh⟩ := runDecomp xs x
      have hxpos : 0 < x := hpos x (by simp)
      rw [heq] at hsum ⊢
      have hsumrep : (List.replicate (q + 1) x ++ rest).sum = (q + 1) * x + rest.sum := by
        rw [List.sum_append, List.sum_replicate, smul_eq_mul]
      rw [hsumrep] at hsum ⊢
      have hrestpos : ∀ s ∈ rest, 0 < s := by
        intro s hsmem
        apply hpos
        rw [heq]
        exact List.mem_append_right _ hsmem
      have hrestlen : rest.length ≤ n := by
        have hlen2 : (x :: xs).length = (q + 1) + rest.length := by
          rw [heq, List.length_append, List.length_replicate]
        rw [List.length_cons] at hlen2
        rw [List.length_cons] at hlen
        omega
      have hQm : (q + 1) * x ≤ m := by omega
      rw [E_run x hxpos rest hh q m 0]
      have hz : (0 : Nat) + (m - (q + 1) * x) = m - (q + 1) * x := by omega
      rw [hz]
      have hmapfact : ((List.replicate (q + 1) x ++ rest).map Nat.factorial).prod =
          Nat.factorial x ^ (q + 1) * (rest.map Nat.factorial).prod := by
        rw [List.map_append, List.prod_append, List.map_replicate, List.prod_replicate]
      rw [hmapfact, runLengths_run x q rest hh]
      rw [List.map_cons, List.prod_cons]
      have hmm : m - ((q + 1) * x + rest.sum) = m - (q + 1) * x - rest.sum := by omega
      rw [hmm]
      have hIH := ihn rest hrestlen hrestpos (m - (q + 1) * x) (by omega)
      have hAf := A_factorial x hxpos (q + 1)
      have hCf := Nat.choose_mul_factorial_mul_factorial hQm
      rw [← hCf, ← hAf, ← hIH]
      ring

/-- On a strictly id-sorted people list the generator's yield count is the
recursive count E, with the pool split by the incoming threshold. -/
theorem okLength_genP_sorted :
    ∀ (sizes : List Nat), (∀ s ∈ sizes, 0 < s) →
      ∀ (P : List Person), P.Pairwise (fun a b => a.id < b.id) →
        ∀ (t : Option String),
          okLength (generatePartitions P sizes t) =
            E sizes (P.filter (fun p => ! aboveId t p.id)).length
              (P.filter (fun p => aboveId t p.id)).length := by
  intro sizes
  induction sizes with
  | nil =>
    intro _ P _ t
    rw [generatePartitions_nil, E_nil]
    rfl
  | cons s0 rest ih =>
    intro hpos P hP t
    have hs0 : 0 < s0 := hpos s0 (by simp)
    obtain ⟨s', rfl⟩ : ∃ s', s0 = s' + 1 := ⟨s0 - 1, by omega⟩
    rw [okLength_genP_cons (s' + 1) rest hpos P t]
    have hpt : ∀ T ∈ combinations P (s' + 1),
        candWeight P (s' + 1) rest t T = wgt (s' + 1) rest t 0 P T := by
      intro T hT
      obtain ⟨hTs, hTl⟩ := mem_combinations_sublist_length hT
      have hTne : T ≠ [] := by
        intro h
        rw [h] at hTl
        simp at hTl
      obtain ⟨μ, hμ⟩ := minIdInTeam_isSome T hTne
      by_cases hskip : skipByThreshold t μ = true
      · rw [candWeight_skip _ _ _ _ _ _ hμ hskip, wgt_skip _ _ _ _ _ _ _ hμ hskip]
      · have hskipF : skipByThreshold t μ = false := by simpa using hskip
        rw [candWeight_go _ _ _ _ _ _ hμ hskipF]
        have hPfil : (P.filter (fun p => ¬ T.contains p)).Pairwise
            (fun a b => a.id < b.id) := hP.sublist (List.filter_sublist P)
        by_cases hnext : rest.head? = some (s' + 1)
        · rw [if_pos hnext, ih (fun s hs => hpos s (by simp [hs])) _ hPfil (some μ),
            wgt_go_same _ _ _ _ _ _ _ hμ hskipF hnext]
          apply E_congr
          · omega
          · rfl
        · rw [if_neg hnext, ih (fun s hs => hpos s (by simp [hs])) _ hPfil none,
            wgt_go_diff _ _ _ _ _ _ _ hμ hskipF hnext]
          have hX1 : (P.filter (fun p => ¬ T.contains p)).filter
              (fun p => ! aboveId none p.id) = [] := by
            apply List.filter_eq_nil_iff.mpr
            intro p _
            simp [aboveId]
          have hX2 : (P.filter (fun p => ¬ T.contains p)).filter
              (fun p => aboveId none p.id) = P.filter (fun p => ¬ T.contains p) := by
            apply List.filter_eq_self.mpr
            intro p _
            rfl
          rw [hX1, hX2]
          apply E_congr
          · rfl
          · omega
    rw [List.map_congr_left hpt, sum_wgt P hP s' rest t 0]
    apply E_congr
    · omega
    · rfl

/-- Claim C5: for every valid input (positive sizes summing to the number of
people, distinct ids), optimizeTeams succeeds and the number of enumerated
partitions (totalCombinationsChecked) is the multinomial coefficient of N
over the team sizes divided by the product of the factorials of the lengths
of the maximal runs of adjacent equal sizes, stated in product form:
count * (prod of size factorials) * (prod of run-length factorials) = N!. -/
theorem C5_enumeration_count (people : List Person) (teamSizes : List Nat)
    (conflictMatrix : ConflictMatrix) (maxResults : Nat)
    (hpos : ∀ s ∈ teamSizes, 0 < s)
    (hsum : teamSizes.foldl (· + ·) 0 = people.length)
    (hids : (people.map (fun p => p.id)).Nodup) :
    ∃ res, optimizeTeams people teamSizes conflictMatrix maxResults = .ok res ∧
      res.totalCombinationsChecked *
        ((teamSizes.map Nat.factorial).prod *
          ((runLengths teamSizes).map Nat.factorial).prod) =
        Nat.factorial people.length := by
  obtain ⟨parts, hgen⟩ := genP_ok_of_pos teamSizes hpos people none
  refine ⟨_, optimizeTeams_ok people teamSizes conflictMatrix maxResults parts hsum hgen, ?_⟩
  have hcount : (parts.foldl (searchStep conflictMatrix maxResults)
      (⟨[], none, 0⟩ : SearchState)).combinationsChecked = parts.length := by
    rw [searchLoop_checked]
    show 0 + parts.length = parts.length
    omega
  show (parts.foldl (searchStep conflictMatrix maxResults)
      (⟨[], none, 0⟩ : SearchState)).combinationsChecked *
      ((teamSizes.map Nat.factorial).prod *
        ((runLengths teamSizes).map Nat.factorial).prod) =
      Nat.factorial people.length
  rw [hcount]
  have hplen : parts.length = okLength (generatePartitions people teamSizes none) := by
    rw [hgen]
    rfl
  have hperm : List.Perm people
      (List.insertionSort (fun a b : Person => a.id ≤ b.id) people) :=
    (List.perm_insertionSort _ people).symm
  have hsorted : (List.insertionSort (fun a b : Person => a.id ≤ b.id) people).Pairwise
      (fun a b : Person => a.id ≤ b.id) := by
    haveI : IsTotal Person (fun a b : Person => a.id ≤ b.id) :=
      ⟨fun a b => le_total a.id b.id⟩
    haveI : IsTrans Person (fun a b : Person => a.id ≤ b.id) :=
      ⟨fun a b c h1 h2 => le_trans h1 h2⟩
    exact List.sorted_insertionSort _ people
  have hnd2 : ((List.insertionSort (fun a b : Person => a.id ≤ b.id) people).map
      (fun p => p.id)).Nodup := (hperm.map (fun p => p.id)).nodup_iff.mp hids
  have hstrict : (List.insertionSort (fun a b : Person => a.id ≤ b.id) people).Pairwise
      (fun a b => a.id < b.id) := by
    have hne := List.pairwise_map.mp hnd2
    refine (hsorted.and hne).imp ?_
    intro a b hab
    exact lt_of_le_of_ne hab.1 hab.2
  have hcntP : okLength (generatePartitions people teamSizes none) =
      okLength (generatePartitions
        (List.insertionSort (fun a b : Person => a.id ≤ b.id) people) teamSizes none) :=
    okLength_genP_perm teamSizes hpos hperm none
  have hsortcnt := okLength_genP_sorted teamSizes hpos _ hstrict none
  have hfilnone1 : (List.insertionSort (fun a b : Person => a.id ≤ b.id) people).filter
      (fun p => ! aboveId none p.id) = [] := by
    apply List.filter_eq_nil_iff.mpr
    intro p _
    simp [aboveId]
  have hfilnone2 : (List.insertionSort (fun a b : Person => a.id ≤ b.id) people).filter
      (fun p => aboveId none p.id) =
      List.insertionSort (fun a b : Person => a.id ≤ b.id) people := by
    apply List.filter_eq_self.mpr
    intro p _
    rfl
  rw [hfilnone1, hfilnone2] at hsortcnt
  simp only [List.length_nil] at hsortcnt
  have hlen' : (List.insertionSort (fun a b : Person => a.id ≤ b.id) people).length =
      people.length := hperm.length_eq.symm
  rw [hlen'] at hsortcnt
  have hEsum : teamSizes.sum = people.length := by
    rw [sum_eq_foldl]
    exact hsum
  have hform := E_formula teamSizes.length teamSizes (Nat.le_refl _) hpos people.length
    (le_of_eq hEsum)
  have h0 : people.length - teamSizes.sum = 0 := by omega
  rw [h0, Nat.factorial_zero, Nat.one_mul] at hform
  rw [hplen, hcntP, hsortcnt]
  exact hform

/-- Witness for C5_enumeration_count: 4 people in teams of sizes [2,2] give
4! / (2!*2!*2!) = 3 enumerated partitions. -/
theorem C5_enumeration_count_witness :
    ∃ res, optimizeTeams [alice, bob, carol, dave] [2, 2] emptyMatrix 10 = .ok res ∧
      res.totalCombinationsChecked *
        (([2, 2].map Nat.factorial).prod *
          ((runLengths [2, 2]).map Nat.factorial).prod) =
        Nat.factorial (List.length [alice, bob, carol, dave]) :=
  C5_enumeration_count [alice, bob, carol, dave] [2, 2] emptyMatrix 10 (by decide)
    (by rfl) (by decide)
